import Mathlib

/-! # Board update webhook (`pkg/webhook/board_update.go`)

A shallow embedding of the board-update handler of pure-bot and of the
issue-reference pattern it uses, followed by the properties proved about them.

Modelling conventions.

* Go strings are modelled as Lean `String`s (sequences of Unicode scalar
  values); the regular expression engine works on `List Char`.
* The package-level variables `stateMapping`, `postProcessing`, `doneColumn`
  and `inboxColumn` are the fields of `Globals`, which every handler receives
  and returns.
* Calls to the GitHub and ZenHub services are recorded in an effect trace; the
  answers of the services are supplied by a `World` value.
* Pointers of the event payload (`*event.Action`, `*event.Issue.Number`,
  `*label.Name`, `*commit.Commit.Message`) are taken to be set.  A pointer
  returned by a service call may be nil: reading a field of it or dereferencing
  it is a panic (`response.Status` after `Unlock`, `*item` after `Issues.Get`);
  method calls such as `response.StatusCode()` are taken to be total.
* Logging is not modelled.
-/

namespace Webhook

/-! ## Data model -/

/-- The `column` struct of the source. -/
structure column where
  name : String
  id : String
  isPostMergePipeline : Bool
  isInbox : Bool
  deriving DecidableEq, Repr

/-- The zero value `column{}`. -/
def column.zero : column := ⟨"", "", false, false⟩

/-- One entry of `config.Board.Columns` (the fields the handler reads). -/
structure ConfigColumn where
  Name : String
  Id : String
  PostMergePipeline : Bool
  IsInbox : Bool
  Events : List String
  deriving DecidableEq, Repr

/-- The part `config.Board` of the repository configuration. -/
structure BoardConfig where
  GithubRepo : String
  ZenhubToken : String
  Columns : List ConfigColumn
  deriving DecidableEq, Repr

/-- The repository configuration `config.RepoConfig`. -/
structure RepoConfig where
  Board : BoardConfig
  deriving DecidableEq, Repr

/-! ### Go maps with string keys

A map is an association list without repeated keys: `mapSet` is `m[k] = v`,
`mapGet` is the two-valued lookup `v, ok := m[k]`, `mapDelete` is
`delete(m, k)` and `len(m)` is the length of the list. -/

/-- The assignment `m[k] = v`. -/
def mapSet {α : Type} (k : String) (v : α) (m : List (String × α)) : List (String × α) :=
  (k, v) :: m.filter (fun e => e.1 != k)

/-- The lookup `v, ok := m[k]`. -/
def mapGet {α : Type} (k : String) : List (String × α) → Option α
  | [] => none
  | (k', v) :: m => if k' == k then some v else mapGet k m

/-- The statement `delete(m, k)`. -/
def mapDelete {α : Type} (k : String) (m : List (String × α)) : List (String × α) :=
  m.filter (fun e => e.1 != k)

/-- The package-level variables of the source. -/
structure Globals where
  stateMapping : List (String × column)
  postProcessing : List (String × column)
  doneColumn : column
  inboxColumn : column
  deriving DecidableEq, Repr

/-- The values of the package-level variables when the process starts. -/
def Globals.initial : Globals := ⟨[], [], column.zero, column.zero⟩

/-! ## Initialisation of the mapping table (`HandleEvent`, lines 50-78) -/

/-- The value `column{col.Name, col.Id, col.PostMergePipeline, col.IsInbox}`. -/
def columnOf (col : ConfigColumn) : column :=
  ⟨col.Name, col.Id, col.PostMergePipeline, col.IsInbox⟩

/-- The body of the loop `for _, col := range config.Board.Columns`. -/
def initColumn (g : Globals) (col : ConfigColumn) : Globals :=
  let c : column := columnOf col
  let g1 := if c.isPostMergePipeline then { g with doneColumn := c } else g
  let g2 := if c.isInbox then { g1 with inboxColumn := c } else g1
  col.Events.foldl (fun acc event => { acc with stateMapping := mapSet event c acc.stateMapping }) g2

/-- The block `if len(stateMapping) == 0 { ... }`. -/
def initialise (g : Globals) (config : RepoConfig) : Globals :=
  if g.stateMapping.length == 0 then config.Board.Columns.foldl initColumn g else g

/-! ## The issue-reference pattern

`regexp.MustCompile` is modelled by a small backtracking matcher.  A match
attempt returns every way the expression can match at the start of the input,
in the order in which a backtracking search finds them; Go's `regexp` package
reports the first of them (leftmost-first semantics).  Only the constructs of
the pattern are covered: classes of single characters, concatenation,
alternation, greedy repetition of a class and capturing groups. -/

/-- Regular expressions over single-character classes. -/
inductive Regex where
  | empty : Regex
  | cls : (Char → Bool) → Regex
  | cat : Regex → Regex → Regex
  | alt : Regex → Regex → Regex
  | star : (Char → Bool) → Regex
  | group : Regex → Regex

/-- The inputs left after a greedy repetition of the class `p`, longest
repetition first. -/
def starRun (p : Char → Bool) : List Char → List (List Char)
  | [] => [[]]
  | c :: cs => if p c then starRun p cs ++ [c :: cs] else [c :: cs]

/-- A matcher state: the input still to be read and the texts of the capturing
groups closed so far. -/
abbrev MState := List Char × List (List Char)

/-- Every match of the expression at the start of the input, in priority
order. -/
def Regex.run : Regex → MState → List MState
  | .empty, st => [st]
  | .cls p, (s, caps) =>
    match s with
    | [] => []
    | c :: cs => if p c then [(cs, caps)] else []
  | .cat a b, st => (a.run st).flatMap (fun st1 => b.run st1)
  | .alt a b, st => a.run st ++ b.run st
  | .star p, (s, caps) => (starRun p s).map (fun s1 => (s1, caps))
  | .group r, (s, caps) =>
    (r.run (s, caps)).map (fun st1 => (st1.1, st1.2 ++ [s.take (s.length - st1.1.length)]))

/-- The characters that the pattern character `c` matches under the flag `i`
(Go folds case by `unicode.SimpleFold`: besides the two ASCII cases, `s` also
matches U+017F and `k` also matches U+212A). -/
def foldEq (c x : Char) : Bool :=
  x == c || x == c.toUpper || (c == 's' && x == 'ſ') || (c == 'k' && x == 'K')

/-- A literal of the pattern, matched case-insensitively. -/
def lit : List Char → Regex
  | [] => .empty
  | c :: cs => .cat (.cls (foldEq c)) (lit cs)

/-- The Perl class `\s` of Go: tab, newline, form feed, carriage return, space. -/
def isSpace (x : Char) : Bool :=
  x == '\t' || x == '\n' || x == '\x0c' || x == '\r' || x == ' '

/-- The class `[^\s]`. -/
def notSpace (x : Char) : Bool := !isSpace x

/-- The class `.` (the flag `s` is not set: every character but newline). -/
def anyButNewline (x : Char) : Bool := x != '\n'

/-- The class `[0-9]`. -/
def isDigit (x : Char) : Bool := '0' ≤ x && x ≤ '9'

/-- The class `[sd]` under the flag `i`. -/
def clsSD (x : Char) : Bool := foldEq 's' x || foldEq 'd' x

/-- One or more repetitions of a class, greedy. -/
def plus (p : Char → Bool) : Regex := .cat (.cls p) (.star p)

/-- The keyword part `(?:clos(?:e[sd]?|ing)|fix(?:e[sd]|ing))`. -/
def keywordRe : Regex :=
  .alt
    (.cat (lit "clos".data)
      (.alt (.cat (lit "e".data) (.alt (.cls clsSD) .empty)) (lit "ing".data)))
    (.cat (lit "fix".data)
      (.alt (.cat (lit "e".data) (.cls clsSD)) (lit "ing".data)))

/-- The part `(?:#|https://github.com/.+/issues/)`.  The dot of `github.com` is
not escaped in the pattern: it matches any character but newline. -/
def targetRe : Regex :=
  .alt (lit "#".data)
    (.cat (lit "https://github".data)
      (.cat (.cls anyButNewline)
        (.cat (lit "com/".data) (.cat (plus anyButNewline) (lit "/issues/".data)))))

/-- The pattern
`(?mi)(?:clos(?:e[sd]?|ing)|fix(?:e[sd]|ing))[^\s]*\s+(?:#|https://github.com/.+/issues/)(?P<issue>[0-9]+)`.
The flag `m` has no effect, the pattern has no `^` or `$`. -/
def regex : Regex :=
  .cat keywordRe
    (.cat (.star notSpace)
      (.cat (plus isSpace)
        (.cat targetRe (.group (plus isDigit)))))

/-- The names of the groups, `regex.SubexpNames()`: group 0 is unnamed. -/
def SubexpNames : List String := ["", "issue"]

/-- The first match of the pattern that starts exactly at the start of `s`:
the unread input and the captured groups. -/
def matchAt (s : List Char) : Option MState := (regex.run (s, [])).head?

/-- The submatch slice of a match starting at the start of `s` (whole match,
then the groups), with the input after the match. -/
def attempt (s : List Char) : Option (List (List Char) × List Char) :=
  (matchAt s).map (fun st => (s.take (s.length - st.1.length) :: st.2, st.1))

/-- The leftmost match: the first position, from the left, at which the pattern
matches. -/
def findSubmatch : List Char → Option (List (List Char) × List Char)
  | [] => attempt []
  | c :: cs =>
    match attempt (c :: cs) with
    | some r => some r
    | none => findSubmatch cs

/-- The successive non-overlapping matches; the search resumes where the
previous match ended (a match of this pattern is never empty).  The first
argument bounds the number of matches. -/
def findAllAux : Nat → List Char → List (List (List Char))
  | 0, _ => []
  | fuel + 1, s =>
    match findSubmatch s with
    | none => []
    | some (m, rest) => m :: findAllAux fuel rest

/-- The call `regex.FindAllStringSubmatch(s, -1)`. -/
def FindAllStringSubmatch (s : String) : List (List String) :=
  (findAllAux (s.length + 1) s.data).map (fun m => m.map String.mk)

/-- The function `extractIssueNumbers`; the slice behind the pointer `issues`
is passed in and the updated slice is returned. -/
def extractIssueNumbers (issues : List String) (commitMessage : String) : List String :=
  (FindAllStringSubmatch commitMessage).foldl
    (fun acc m =>
      (List.range m.length).foldl
        (fun acc1 groupIdx =>
          if SubexpNames.getD groupIdx "" == "issue" then acc1 ++ [m.getD 1 ""] else acc1)
        acc)
    issues

/-! ## Events, services and effects -/

/-- A label of an issue (`github.Label`): its name. -/
structure Label where
  Name : String
  deriving DecidableEq, Repr

/-- The fields of `github.Issue` that the handler reads. -/
structure Issue where
  Number : Int
  Locked : Bool
  Milestone : Option String
  Labels : List Label
  HTMLURL : String
  deriving DecidableEq, Repr

/-- The event `github.IssuesEvent`. -/
structure IssuesEvent where
  Action : String
  Issue : Issue
  deriving DecidableEq, Repr

/-- A commit of a pull request: its message. -/
structure Commit where
  Message : String
  deriving DecidableEq, Repr

/-- The fields of `github.PullRequest` that the handler reads. -/
structure PullRequest where
  Number : Int
  Body : String
  deriving DecidableEq, Repr

/-- The event `github.PullRequestEvent`. -/
structure PullRequestEvent where
  Action : String
  PullRequest : PullRequest
  deriving DecidableEq, Repr

/-- The argument `eventObject` of `HandleEvent`, by the cases of its type
switch. -/
inductive EventObject where
  | issues : IssuesEvent → EventObject
  | pullRequest : PullRequestEvent → EventObject
  | other : EventObject
  deriving DecidableEq, Repr

/-- The answers of the GitHub and ZenHub services.  A failed call answers with
its error message.
* `Unlock` answers with the pair `(response, err)` of the Go call: the status
  text of the response, absent for a nil response, and the error, if any.
* `IssuesGet` answers, by issue number, with the fetched issue, absent when the call returned
  nil (the source discards the error of that call).
* `Post` is the POST to `/issues/<n>/moves` by issue and pipeline id: a
  transport error or the HTTP status.
* `Get` is the GET of `/issues/<n>`: a transport error, or the HTTP status with
  the outcome of decoding the body (an error, or the pipeline name). -/
structure World where
  ListLabelsByIssue : Int → Except String (List Label)
  Unlock : Int → Option String × Option String
  ListCommits : Int → Except String (List Commit)
  IssuesGet : Int → Option Issue
  Post : String → String → Except String Nat
  Get : String → Except String (Nat × Except String String)

/-- The calls the handler makes to the outside, and the start of the deferred
task. -/
inductive Effect where
  | ListLabelsByIssue (number : Int)
  | RemoveLabelForIssue (number : Int) (label : String)
  | AddLabelsToIssue (number : Int) (labels : List String)
  | Unlock (number : Int)
  | Lock (number : Int) (reason : String)
  | Edit (number : Int) (state : String)
  | ListCommits (number : Int)
  | IssuesGet (number : Int)
  | BoardPost (repo : String) (issue : String) (pipelineId : String)
  | BoardGet (repo : String) (issue : String)
  | Sleep (seconds : Nat)
  | goPostProcess (number : Int)
  deriving DecidableEq, Repr

/-- How a handler ends: it returns nil, returns an error, or panics on a nil
pointer. -/
inductive Outcome where
  | nil : Outcome
  | error : String → Outcome
  | panic : Outcome
  deriving DecidableEq, Repr

/-- The result of a handler: how it ended, the package-level variables
afterwards and the calls it made, in order. -/
structure Result where
  ret : Outcome
  globals : Globals
  effects : List Effect
  deriving DecidableEq, Repr

/-- The conversion `strconv.Itoa`. -/
def Itoa (n : Int) : String := toString n

/-- The value of a run of decimal digits. -/
def digitsValue (ds : List Char) : Nat :=
  ds.foldl (fun acc c => 10 * acc + (c.toNat - '0'.toNat)) 0

/-- The text is a non-empty run of decimal digits. -/
def isDigits (ds : List Char) : Bool := !ds.isEmpty && ds.all isDigit

/-- The value of `i, _ := strconv.Atoi(s)` with 64-bit `int`, the error being
discarded: an optional sign and decimal digits; 0 for any other text; a value
out of range is replaced by the nearest bound. -/
def Atoi (s : String) : Int :=
  match s.data with
  | '-' :: ds =>
    if isDigits ds then max (-(digitsValue ds : Int)) (-9223372036854775808) else 0
  | '+' :: ds =>
    if isDigits ds then min (digitsValue ds : Int) 9223372036854775807 else 0
  | ds =>
    if isDigits ds then min (digitsValue ds : Int) 9223372036854775807 else 0

/-- Modelled from the spec: the helper `labelsContainsLabel` is defined outside
this file; the issue "carries" the label when one of its labels has that
name. -/
def labelsContainsLabel (labels : List Label) (label : String) : Bool :=
  labels.any (fun l => l.Name == label)

/-! ## The board mover -/

/-- The function `moveIssueOnBoard`: the returned error and the call made.  A
status above 400 is only logged. -/
def moveIssueOnBoard (w : World) (config : RepoConfig) (issue : String) (col : column) :
    Option String × List Effect :=
  match w.Post issue col.id with
  | .error err => (some err, [Effect.BoardPost config.Board.GithubRepo issue col.id])
  | .ok _ => (none, [Effect.BoardPost config.Board.GithubRepo issue col.id])

/-- The function `getIssueColumn`: the pair `(error, column name)` it returns
and the call made. -/
def getIssueColumn (w : World) (config : RepoConfig) (issue : String) :
    (Option String × String) × List Effect :=
  match w.Get issue with
  | .error err => ((some err, ""), [Effect.BoardGet config.Board.GithubRepo issue])
  | .ok (_, .error err) => ((some err, ""), [Effect.BoardGet config.Board.GithubRepo issue])
  | .ok (_, .ok name) => ((none, name), [Effect.BoardGet config.Board.GithubRepo issue])

/-! ## Progress labels -/

/-- The function `changeProgressLabel`: its body is commented out in the
source, it makes no call. -/
def changeProgressLabel (_issue : Issue) (_newLabel : String) : List Effect := []

/-- The test `strings.HasPrefix(s, pre)`. -/
def HasPrefix (s pre : String) : Bool := pre.data.isPrefixOf s.data

/-- The function `clearProgressLabel`: one removal for each label of the issue
whose name starts with `progress/`. -/
def clearProgressLabel (issue : Issue) : List Effect :=
  (issue.Labels.filter (fun label => HasPrefix label.Name "progress/")).map
    (fun label => Effect.RemoveLabelForIssue issue.Number label.Name)

/-- The deferred task `postProcess`, started by `go`: the grace time, the lock
and the re-opening.  Failures of the two calls are only logged. -/
def postProcess (event : IssuesEvent) : List Effect :=
  [Effect.Sleep 10, Effect.Lock event.Issue.Number "resolved", Effect.Edit event.Issue.Number "open"]

/-! ## The issue event classifier -/

/-- The end of `handleIssuesEvent` (lines 177-198), reached by every branch
that does not return: the guard on locked issues, then the lookup in the
mapping table.  `effs` are the calls made so far. -/
def regularProcessing (g : Globals) (w : World) (config : RepoConfig) (event : IssuesEvent)
    (effs : List Effect) : Result :=
  if event.Issue.Locked == true then ⟨.nil, g, effs⟩
  else
    match mapGet ("issues" ++ "_" ++ event.Action) g.stateMapping with
    | some col =>
      match moveIssueOnBoard w config (Itoa event.Issue.Number) col with
      | (none, e1) => ⟨.nil, g, effs ++ e1 ++ changeProgressLabel event.Issue col.name⟩
      | (some err, e1) => ⟨.error err, g, effs ++ e1⟩
    | none => ⟨.nil, g, effs⟩

/-- The function `handleIssuesEvent`. -/
def handleIssuesEvent (g : Globals) (w : World) (config : RepoConfig) (event : IssuesEvent) :
    Result :=
  let number := Itoa event.Issue.Number
  let eventKey := "issues" ++ "_" ++ event.Action
  if "issues_closed" == eventKey then
    match w.ListLabelsByIssue event.Issue.Number with
    | .error err =>
      ⟨.error ("failed to list labels for Issue " ++ event.Issue.HTMLURL ++ ": " ++ err), g,
        [Effect.ListLabelsByIssue event.Issue.Number]⟩
    | .ok labels =>
      if labelsContainsLabel labels "ignore/qe" then
        ⟨.nil, g, [Effect.ListLabelsByIssue event.Issue.Number]⟩
      else
        match mapGet number g.postProcessing with
        | some _ =>
          ⟨.nil, g, [Effect.ListLabelsByIssue event.Issue.Number,
            Effect.goPostProcess event.Issue.Number]⟩
        | none =>
          regularProcessing g w config event
            (Effect.ListLabelsByIssue event.Issue.Number :: clearProgressLabel event.Issue)
  else if "issues_reopened" == eventKey && event.Issue.Locked then
    match moveIssueOnBoard w config number g.doneColumn with
    | (some _, e1) => regularProcessing g w config event e1
    | (none, e1) =>
      let g1 :=
        match mapGet number g.postProcessing with
        | some _ => { g with postProcessing := mapDelete number g.postProcessing }
        | none => g
      let e2 := changeProgressLabel event.Issue g.doneColumn.name
      match w.Unlock event.Issue.Number with
      | (none, some _) => ⟨.panic, g1, e1 ++ e2 ++ [Effect.Unlock event.Issue.Number]⟩
      | _ => regularProcessing g1 w config event (e1 ++ e2 ++ [Effect.Unlock event.Issue.Number])
  else if "issues_opened" == eventKey && event.Issue.Milestone.isSome then
    match mapGet "issues_milestoned" g.stateMapping with
    | some _ => ⟨.nil, g, []⟩
    | none => regularProcessing g w config event []
  else if "issues_milestoned" == eventKey then
    match getIssueColumn w config number with
    | ((_, col), e1) =>
      if col != g.inboxColumn.name then ⟨.nil, g, e1⟩
      else regularProcessing g w config event e1
  else if "issues_demilestoned" == eventKey then ⟨.nil, g, []⟩
  else regularProcessing g w config event []

/-! ## The pull-request event classifier -/

/-- The loop `for _, number := range issues` of `handlePullRequestEvent`
(lines 280-314), with the final `return nil`.  `effs` are the calls made so
far. -/
def processIssues (w : World) (config : RepoConfig) (eventKey : String) :
    Globals → List String → List Effect → Result
  | g, [], effs => ⟨.nil, g, effs⟩
  | g, number :: rest, effs =>
    match mapGet number g.postProcessing with
    | some _ => processIssues w config eventKey g rest effs
    | none =>
      if "pull_request_opened" == eventKey && g.doneColumn.isPostMergePipeline then
        processIssues w config eventKey
          { g with postProcessing := mapSet number g.doneColumn g.postProcessing } rest effs
      else
        match mapGet eventKey g.stateMapping with
        | some col =>
          match moveIssueOnBoard w config number col, w.IssuesGet (Atoi number) with
          | (none, e1), some item =>
            ⟨.nil, g,
              effs ++ e1 ++ [Effect.IssuesGet (Atoi number)] ++ changeProgressLabel item col.name⟩
          | (none, e1), none => ⟨.panic, g, effs ++ e1 ++ [Effect.IssuesGet (Atoi number)]⟩
          | (some err, e1), _ => ⟨.error err, g, effs ++ e1 ++ [Effect.IssuesGet (Atoi number)]⟩
        | none => processIssues w config eventKey g rest effs

/-- The issue numbers referenced by the pull request (lines 259-275): those of
the commit messages, or those of the body when the commits reference none. -/
def referencedIssues (commits : List Commit) (body : String) : List String :=
  let issues := commits.foldl (fun acc commit => extractIssueNumbers acc commit.Message) []
  if issues.length == 0 then extractIssueNumbers issues body else issues

/-- The function `handlePullRequestEvent`. -/
def handlePullRequestEvent (g : Globals) (w : World) (config : RepoConfig)
    (event : PullRequestEvent) : Result :=
  let eventKey := "pull_request" ++ "_" ++ event.Action
  match w.ListCommits event.PullRequest.Number with
  | .error _ => ⟨.nil, g, [Effect.ListCommits event.PullRequest.Number]⟩
  | .ok commits =>
    processIssues w config eventKey g (referencedIssues commits event.PullRequest.Body)
      [Effect.ListCommits event.PullRequest.Number]

/-! ## The entry point -/

/-- The function `HandleEvent`. -/
def HandleEvent (g : Globals) (w : World) (config : RepoConfig) (eventObject : EventObject) :
    Result :=
  if "<repo>" == config.Board.GithubRepo then ⟨.nil, g, []⟩
  else
    match eventObject with
    | .issues event => handleIssuesEvent (initialise g config) w config event
    | .pullRequest event => handlePullRequestEvent (initialise g config) w config event
    | .other => ⟨.nil, initialise g config, []⟩

/-! ## Notions used in the statements -/

/-- The last column of the configuration that satisfies `flag`. -/
def lastFlagged (flag : ConfigColumn → Bool) (cols : List ConfigColumn) : Option column :=
  ((cols.filter flag).getLast?).map columnOf

/-- The three variables that only the initialisation writes: the mapping
table, the done column and the inbox column. -/
def Globals.static (g : Globals) : List (String × column) × column × column :=
  (g.stateMapping, g.doneColumn, g.inboxColumn)

/-- A world in which every call succeeds: no labels, no commits, the board
answers with status 200 and the pipeline `Inbox`. -/
def World.quiet : World where
  ListLabelsByIssue := fun _ => .ok []
  Unlock := fun _ => (some "200 OK", none)
  ListCommits := fun _ => .ok []
  IssuesGet := fun _ => some ⟨0, false, none, [], ""⟩
  Post := fun _ _ => .ok 200
  Get := fun _ => .ok (200, .ok "Inbox")

/-- A configuration with an inbox column and two post-merge-pipeline columns. -/
def sampleConfig : RepoConfig :=
  ⟨⟨"1234", "token",
    [⟨"Inbox", "c1", false, true, ["issues_opened", "issues_milestoned"]⟩,
     ⟨"Review", "c2", true, false, ["pull_request_opened"]⟩,
     ⟨"Done", "c3", true, false, ["pull_request_closed"]⟩]⟩⟩

/-! ### Closing references in a text -/

/-- The text starts with the pattern literal `p`, case-insensitively. -/
def foldPrefix : List Char → List Char → Bool
  | [], _ => true
  | _ :: _, [] => false
  | c :: cs, x :: xs => foldEq c x && foldPrefix cs xs

/-- `v` spells the lower-case word `k` in some letter case. -/
def sameLetters : List Char → List Char → Bool
  | [], [] => true
  | c :: cs, x :: xs => (x == c || x == c.toUpper) && sameLetters cs xs
  | _, _ => false

/-- The keywords that the pattern spells out. -/
def spelledKeywords : List String :=
  ["close", "closes", "closed", "closing", "fixes", "fixed", "fixing"]

/-- `v` is one of the spelled keywords, in some letter case. -/
def isKeyword (v : List Char) : Bool := spelledKeywords.any (fun k => sameLetters k.data v)

/-- The text starts with a digit. -/
def startsWithDigit : List Char → Bool
  | [] => false
  | c :: _ => isDigit c

/-- The text starts with `/issues/` (case-insensitively) and a digit. -/
def issueRefAt (t : List Char) : Bool :=
  foldPrefix "/issues/".data t && startsWithDigit (t.drop 8)

/-- Somewhere on the first line of the text, `/issues/` and a digit occur. -/
def laterIssueRef : List Char → Bool
  | [] => false
  | c :: cs => issueRefAt (c :: cs) || (c != '\n' && laterIssueRef cs)

/-- Every repetition of `p` over a non-empty prefix of `W` leaves an input on
which `F` finds nothing. -/
def extFail (p : Char → Bool) (F : List Char → List MState) (W : List Char) : Prop :=
  ∀ b t, b ≠ [] → W = b ++ t → (∀ x ∈ b, p x = true) → F t = []

/-- The rest of the pattern after `.+`: the literal `/issues/` and the group. -/
def issueTail (caps : List (List Char)) (t : List Char) : List MState :=
  ((lit "/issues/".data).run (t, caps)).flatMap (Regex.group (plus isDigit)).run

/-- A closing reference: a keyword, whitespace, then `#<digits>` or the URL
`https://github.com/<owner>/<repo>/issues/<digits>`. -/
inductive Reference where
  | hash (kw ws d : List Char)
  | url (kw ws owner repo d : List Char)

/-- The keyword of a reference. -/
def Reference.keyword : Reference → List Char
  | .hash kw _ _ => kw
  | .url kw _ _ _ _ => kw

/-- The whitespace between the keyword and the target. -/
def Reference.space : Reference → List Char
  | .hash _ ws _ => ws
  | .url _ ws _ _ _ => ws

/-- The digits of the issue number. -/
def Reference.digits : Reference → List Char
  | .hash _ _ d => d
  | .url _ _ _ _ d => d

/-- The target up to the digits: `#`, or the URL up to `/issues/`. -/
def Reference.lead : Reference → List Char
  | .hash _ _ _ => ['#']
  | .url _ _ owner repo _ =>
    "https://github.com/".data ++ ((owner ++ '/' :: repo) ++ "/issues/".data)

/-- The text of a reference. -/
def Reference.text (r : Reference) : List Char :=
  r.keyword ++ (r.space ++ (r.lead ++ r.digits))

/-- The issue number of a reference. -/
def Reference.number (r : Reference) : String := String.mk r.digits

/-- The parts of the reference are as the claim describes them: a spelled
keyword, some whitespace, some digits, and no line break in owner or
repository. -/
def Reference.wellFormed (r : Reference) : Bool :=
  isKeyword r.keyword && !r.space.isEmpty && r.space.all isSpace &&
    !r.digits.isEmpty && r.digits.all isDigit &&
    match r with
    | .hash _ _ _ => true
    | .url _ _ owner repo _ => owner.all anyButNewline && repo.all anyButNewline

/-- The text after the reference does not continue its number; after a URL it
has no further `/issues/<digit>` on the same line. -/
def Reference.fits (r : Reference) (after : List Char) : Bool :=
  !startsWithDigit after &&
    match r with
    | .hash _ _ _ => true
    | .url _ _ _ _ _ => !laterIssueRef after

/-- The text starts with the stem of a closing keyword, `clos` or `fix`, in any
letter case. -/
def startsStem (s : List Char) : Bool :=
  foldPrefix "clos".data s || foldPrefix "fix".data s

/-- The stem of a closing keyword occurs in the text. -/
def hasStem : List Char → Bool
  | [] => false
  | c :: cs => startsStem (c :: cs) || hasStem cs

/-- The text made of the references, each preceded by its filler, and of the
closing filler `tail`. -/
def textOf : List (List Char × Reference) → List Char → List Char
  | [], tail => tail
  | (f, r) :: rest, tail => f ++ (r.text ++ textOf rest tail)

/-- The fillers hold no keyword stem, the references are well formed and each
fits the text that follows it. -/
def separated : List (List Char × Reference) → List Char → Bool
  | [], tail => !hasStem tail
  | (f, r) :: rest, tail =>
    !hasStem f && r.wellFormed && r.fits (textOf rest tail) && separated rest tail

/-- The example of the specification,
`Fixes #42 and closes https://github.com/o/r/issues/99`, cut into references. -/
def specExample : List (List Char × Reference) :=
  [([], .hash "Fixes".data " ".data "42".data),
   (" and ".data, .url "closes".data " ".data "o".data "r".data "99".data)]

/-- Two URL references on one line:
`closes https://github.com/o/r/issues/1 closes https://github.com/o/r/issues/2`. -/
def sameLineExample : List (List Char × Reference) :=
  [([], .url "closes".data " ".data "o".data "r".data "1".data),
   (" ".data, .url "closes".data " ".data "o".data "r".data "2".data)]

/-! ### Effects and sample inputs -/

/-- The effect is a move on the board (the POST of `moveIssueOnBoard`). -/
def Effect.isBoardMove : Effect → Bool
  | .BoardPost _ _ _ => true
  | _ => false

/-- The effect adds or removes a label. -/
def Effect.isLabelCall : Effect → Bool
  | .RemoveLabelForIssue _ _ => true
  | .AddLabelsToIssue _ _ => true
  | _ => false

/-- The effect is an unlock call. -/
def Effect.isUnlock : Effect → Bool
  | .Unlock _ => true
  | _ => false

/-- The effect is the start of the deferred task. -/
def Effect.isDeferredTask : Effect → Bool
  | .goPostProcess _ => true
  | _ => false

/-- The handler made no board move and no label call and returned nil. -/
def Result.quiet (r : Result) : Prop :=
  r.ret = Outcome.nil ∧ r.effects.all (fun e => !e.isBoardMove && !e.isLabelCall) = true

/-- The mapping table, done column and inbox column built from the sample
configuration. -/
def sampleGlobals : Globals := initialise Globals.initial sampleConfig

/-- The sample state with a marker for issue 5. -/
def markedGlobals : Globals :=
  { sampleGlobals with postProcessing := [("5", sampleGlobals.doneColumn)] }

/-- Issue 5, unlocked, without milestone, labelled `progress/review`. -/
def sampleIssue : Issue :=
  ⟨5, false, none, [⟨"progress/review"⟩], "https://github.com/o/r/issues/5"⟩

/-- Issue 5, locked. -/
def lockedIssue : Issue := { sampleIssue with Locked := true }

/-- A world whose label listing holds `ignore/qe`. -/
def World.ignoring : World :=
  { World.quiet with ListLabelsByIssue := fun _ => .ok [⟨"bug"⟩, ⟨"ignore/qe"⟩] }

/-- A world whose label listing fails. -/
def World.noLabels : World :=
  { World.quiet with ListLabelsByIssue := fun _ => .error "timeout" }

/-- A world in which the board reports the pipeline `Review`. -/
def World.inReview : World :=
  { World.quiet with Get := fun _ => .ok (200, .ok "Review") }

/-- A world in which the POST to the board fails. -/
def World.boardDown : World :=
  { World.quiet with Post := fun _ _ => .error "connection refused" }

/-- A world in which pull request 9 has two commits, closing issues 1 and 2. -/
def World.twoCommits : World :=
  { World.quiet with ListCommits := fun _ => .ok [⟨"fixes #1"⟩, ⟨"fixes #2"⟩] }

/-- A sequence of calls of `HandleEvent`, each with its world, configuration
and event: the package-level variables after the last call. -/
def runCalls (g : Globals) : List (World × RepoConfig × EventObject) → Globals
  | [] => g
  | (w, config, e) :: rest => runCalls (HandleEvent g w config e).globals rest

/-- A configuration whose only column, `Done`, lists no event. -/
def configA : RepoConfig := ⟨⟨"1234", "token", [⟨"Done", "a", true, true, []⟩]⟩⟩

/-- A configuration whose only column, `Closed`, lists no event. -/
def configB : RepoConfig := ⟨⟨"5678", "token", [⟨"Closed", "b", true, true, []⟩]⟩⟩

/-! ### Further notions and sample inputs -/

/-- The effect is a lock or an unlock call. -/
def Effect.isLockCall : Effect → Bool
  | .Lock _ _ => true
  | .Unlock _ => true
  | _ => false

/-- The effect removes a label. -/
def Effect.isLabelRemoval : Effect → Bool
  | .RemoveLabelForIssue _ _ => true
  | _ => false

/-- The effect adds labels. -/
def Effect.isLabelAddition : Effect → Bool
  | .AddLabelsToIssue _ _ => true
  | _ => false

/-- Issue 5 with the milestone `v1`. -/
def milestonedIssue : Issue := { sampleIssue with Milestone := some "v1" }

/-- Issue 5 with two progress labels. -/
def twoProgressIssue : Issue :=
  { sampleIssue with Labels := [⟨"progress/review"⟩, ⟨"bug"⟩, ⟨"progress/done"⟩] }

/-- A world in which the board answers the POST with status 500. -/
def World.boardRefuses : World :=
  { World.quiet with Post := fun _ _ => .ok 500 }

/-- A world in which the unlock call fails with a response. -/
def World.unlockDenied : World :=
  { World.quiet with Unlock := fun _ => (some "403 Forbidden", some "forbidden") }

/-- A world in which the GET of the board fails. -/
def World.boardGetDown : World :=
  { World.quiet with Get := fun _ => .error "timeout" }

/-- A world in which the board answers the GET with a body that is not JSON. -/
def World.boardGarbled : World :=
  { World.quiet with Get := fun _ => .ok (200, .error "invalid character") }

/-- A configuration without inbox column, in which `issues_milestoned` is
mapped to the column `Backlog`. -/
def noInboxConfig : RepoConfig :=
  ⟨⟨"1234", "token",
    [⟨"Backlog", "b1", false, false, ["issues_milestoned"]⟩,
     ⟨"Done", "b2", true, false, ["pull_request_closed"]⟩]⟩⟩

/-- The package-level variables built from the configuration without inbox
column. -/
def noInboxGlobals : Globals := initialise Globals.initial noInboxConfig

/-- A pull-request event `opened` whose body closes issue 7. -/
def openedSeven : PullRequestEvent := ⟨"opened", ⟨9, "closes #7"⟩⟩

/-- A later pull-request event `opened` whose body closes the issues 7 and 8. -/
def openedSevenEight : PullRequestEvent := ⟨"opened", ⟨10, "closes #7, closes #8"⟩⟩

/-- A pull-request event `labeled` (an unmapped action) whose body closes
issue 7. -/
def labeledSeven : PullRequestEvent := ⟨"labeled", ⟨9, "closes #7"⟩⟩

/-- The expression has no capturing group. -/
def Regex.groupFree : Regex → Bool
  | .empty => true
  | .cls _ => true
  | .cat a b => a.groupFree && b.groupFree
  | .alt a b => a.groupFree && b.groupFree
  | .star _ => true
  | .group _ => false

/-- The string is not empty and made of the ASCII digits `0` to `9` only. -/
def isNumber (x : String) : Bool := !x.data.isEmpty && x.data.all isDigit

/-- The shape of the submatch slices: the whole match and the digits of the
group. -/
def digitMatch (m : List (List Char)) : Prop :=
  ∃ whole d, m = [whole, d] ∧ d ≠ [] ∧ ∀ x ∈ d, isDigit x = true

/-- The results of the extractor on the commit messages, concatenated in commit
order. -/
def commitIssues (commits : List Commit) : List String :=
  commits.flatMap (fun commit => extractIssueNumbers [] commit.Message)

/-- A world in which the unlock call fails without a response (the pair
`(nil, err)` of a call that never reached the server). -/
def World.unlockDropped : World :=
  { World.quiet with Unlock := fun _ => (none, some "connection reset") }

/-! # Theorems -/

/-! ## Initialisation -/

theorem foldl_events_static (c : column) (events : List String) (g : Globals) :
    (events.foldl (fun acc event => { acc with stateMapping := mapSet event c acc.stateMapping }) g).doneColumn
      = g.doneColumn ∧
    (events.foldl (fun acc event => { acc with stateMapping := mapSet event c acc.stateMapping }) g).inboxColumn
      = g.inboxColumn ∧
    (events.foldl (fun acc event => { acc with stateMapping := mapSet event c acc.stateMapping }) g).postProcessing
      = g.postProcessing := by
  induction events generalizing g with
  | nil => simp
  | cons e es ih => simp only [List.foldl_cons]; rw [(ih _).1, (ih _).2.1, (ih _).2.2]; simp

theorem initColumn_doneColumn (g : Globals) (col : ConfigColumn) :
    (initColumn g col).doneColumn = if col.PostMergePipeline then columnOf col else g.doneColumn := by
  unfold initColumn
  simp only [(foldl_events_static _ _ _).1]
  by_cases h1 : col.PostMergePipeline <;> by_cases h2 : col.IsInbox <;> simp [columnOf, h1, h2]

theorem initColumn_inboxColumn (g : Globals) (col : ConfigColumn) :
    (initColumn g col).inboxColumn = if col.IsInbox then columnOf col else g.inboxColumn := by
  unfold initColumn
  simp only [(foldl_events_static _ _ _).2.1]
  by_cases h1 : col.PostMergePipeline <;> by_cases h2 : col.IsInbox <;> simp [columnOf, h1, h2]

theorem foldl_initColumn_doneColumn (cols : List ConfigColumn) (g : Globals) :
    (cols.foldl initColumn g).doneColumn
      = (lastFlagged (fun col => col.PostMergePipeline) cols).getD g.doneColumn := by
  induction cols using List.reverseRecOn with
  | nil => simp [lastFlagged]
  | append_singleton l a ih =>
    rw [List.foldl_append, List.foldl_cons, List.foldl_nil, initColumn_doneColumn, ih]
    by_cases h : a.PostMergePipeline <;> simp [lastFlagged, List.filter_append, h]

theorem foldl_initColumn_inboxColumn (cols : List ConfigColumn) (g : Globals) :
    (cols.foldl initColumn g).inboxColumn
      = (lastFlagged (fun col => col.IsInbox) cols).getD g.inboxColumn := by
  induction cols using List.reverseRecOn with
  | nil => simp [lastFlagged]
  | append_singleton l a ih =>
    rw [List.foldl_append, List.foldl_cons, List.foldl_nil, initColumn_inboxColumn, ih]
    by_cases h : a.IsInbox <;> simp [lastFlagged, List.filter_append, h]

theorem regularProcessing_globals (g : Globals) (w : World) (config : RepoConfig)
    (event : IssuesEvent) (effs : List Effect) :
    (regularProcessing g w config event effs).globals = g := by
  unfold regularProcessing
  split
  · rfl
  · split
    · split <;> rfl
    · rfl

theorem handleIssuesEvent_static (g : Globals) (w : World) (config : RepoConfig)
    (event : IssuesEvent) :
    (handleIssuesEvent g w config event).globals.static = g.static := by
  unfold handleIssuesEvent
  simp only
  repeat' split
  all_goals simp only [regularProcessing_globals, Globals.static]

theorem processIssues_static (w : World) (config : RepoConfig) (eventKey : String)
    (issues : List String) (g : Globals) (effs : List Effect) :
    (processIssues w config eventKey g issues effs).globals.static = g.static := by
  induction issues generalizing g effs with
  | nil => rfl
  | cons number rest ih =>
    unfold processIssues
    repeat' split
    all_goals first | exact ih _ _ | rfl

theorem handlePullRequestEvent_static (g : Globals) (w : World) (config : RepoConfig)
    (event : PullRequestEvent) :
    (handlePullRequestEvent g w config event).globals.static = g.static := by
  unfold handlePullRequestEvent
  simp only
  split
  · rfl
  · exact processIssues_static _ _ _ _ _ _

theorem HandleEvent_static (g : Globals) (w : World) (config : RepoConfig)
    (eventObject : EventObject) (hrepo : config.Board.GithubRepo ≠ "<repo>") :
    (HandleEvent g w config eventObject).globals.static = (initialise g config).static := by
  unfold HandleEvent
  have h : ("<repo>" == config.Board.GithubRepo) = false := by
    simpa [beq_eq_false_iff_ne] using hrepo.symm
  simp only [h]
  cases eventObject with
  | issues event => exact handleIssuesEvent_static _ _ _ _
  | pullRequest event => exact handlePullRequestEvent_static _ _ _ _
  | other => rfl

/-- C1: starting from an empty mapping table, after `HandleEvent` (for a
configured repository) the done column carries the name, the id and the flags
of the last column of the configuration with `isPostMergePipeline` set, and the
inbox column those of the last one with `isInbox` set; when no column carries
the flag, the variable keeps the value it had before the call, which is the
empty column when the process starts. -/
theorem HandleEvent_last_wins (g : Globals) (w : World) (config : RepoConfig)
    (eventObject : EventObject) (hempty : g.stateMapping = [])
    (hrepo : config.Board.GithubRepo ≠ "<repo>") :
    (HandleEvent g w config eventObject).globals.doneColumn
        = (match (config.Board.Columns.filter (fun col => col.PostMergePipeline)).getLast? with
            | some col => ⟨col.Name, col.Id, col.PostMergePipeline, col.IsInbox⟩
            | none => g.doneColumn) ∧
    (HandleEvent g w config eventObject).globals.inboxColumn
        = (match (config.Board.Columns.filter (fun col => col.IsInbox)).getLast? with
            | some col => ⟨col.Name, col.Id, col.PostMergePipeline, col.IsInbox⟩
            | none => g.inboxColumn) := by
  have h := HandleEvent_static g w config eventObject hrepo
  have hinit : initialise g config = config.Board.Columns.foldl initColumn g := by
    simp [initialise, hempty]
  simp only [Globals.static, Prod.mk.injEq] at h
  rw [h.2.1, h.2.2, hinit, foldl_initColumn_doneColumn, foldl_initColumn_inboxColumn]
  constructor
  · unfold lastFlagged
    cases (config.Board.Columns.filter (fun col => col.PostMergePipeline)).getLast? with
    | none => rfl
    | some col => simp [columnOf]
  · unfold lastFlagged
    cases (config.Board.Columns.filter (fun col => col.IsInbox)).getLast? with
    | none => rfl
    | some col => simp [columnOf]

/-- C1, at the start of the process: with the sample configuration the done
column is `Done` (id `c3`), the later of the two flagged columns, and the inbox
column is `Inbox` (id `c1`); with the configuration without inbox column the
inbox column stays the empty column. -/
theorem HandleEvent_last_wins_witness :
    Globals.initial.stateMapping = [] ∧ sampleConfig.Board.GithubRepo ≠ "<repo>" ∧
    noInboxConfig.Board.GithubRepo ≠ "<repo>" ∧
    (HandleEvent Globals.initial World.quiet sampleConfig EventObject.other).globals.doneColumn
        = ⟨"Done", "c3", true, false⟩ ∧
    (HandleEvent Globals.initial World.quiet sampleConfig EventObject.other).globals.inboxColumn
        = ⟨"Inbox", "c1", false, true⟩ ∧
    (HandleEvent Globals.initial World.quiet noInboxConfig EventObject.other).globals.inboxColumn
        = ⟨"", "", false, false⟩ :=
  ⟨rfl, by decide, by decide,
    (HandleEvent_last_wins Globals.initial World.quiet sampleConfig EventObject.other rfl
      (by decide)).1.trans (by decide),
    (HandleEvent_last_wins Globals.initial World.quiet sampleConfig EventObject.other rfl
      (by decide)).2.trans (by decide),
    (HandleEvent_last_wins Globals.initial World.quiet noInboxConfig EventObject.other rfl
      (by decide)).2.trans (by decide)⟩

/-! ## The pattern matcher -/

theorem run_lit (p : List Char) (s : List Char) (caps : List (List Char)) :
    (lit p).run (s, caps) = if foldPrefix p s then [(s.drop p.length, caps)] else [] := by
  induction p generalizing s with
  | nil => simp [lit, Regex.run, foldPrefix]
  | cons c cs ih =>
    cases s with
    | nil => simp [lit, Regex.run, foldPrefix]
    | cons x xs =>
      by_cases h : foldEq c x = true
      · simp [lit, Regex.run, foldPrefix, h, ih]
      · simp [lit, Regex.run, foldPrefix, h]

theorem sameLetters_cons (c : Char) (k v : List Char) :
    sameLetters (c :: k) v = true ↔
      ∃ x v1, v = x :: v1 ∧ (x = c ∨ x = c.toUpper) ∧ sameLetters k v1 = true := by
  cases v with
  | nil => simp [sameLetters]
  | cons x xs =>
    simp only [sameLetters, Bool.and_eq_true, Bool.or_eq_true, beq_iff_eq]
    constructor
    · rintro ⟨h1, h2⟩
      exact ⟨x, xs, rfl, h1, h2⟩
    · rintro ⟨_, _, h, h1, h2⟩
      cases h
      exact ⟨h1, h2⟩

theorem sameLetters_nil (v : List Char) : sameLetters [] v = true ↔ v = [] := by
  cases v <;> simp [sameLetters]

theorem foldEq_case (c x : Char) (h : x = c ∨ x = c.toUpper) : foldEq c x = true := by
  rcases h with rfl | rfl <;> simp [foldEq]

theorem clsSD_isSpace (w : Char) (h : isSpace w = true) : clsSD w = false := by
  simp only [isSpace, Bool.or_eq_true, beq_iff_eq] at h
  rcases h with (((h | h) | h) | h) | h <;> subst h <;> decide

theorem lit_clos : "clos".data = ['c', 'l', 'o', 's'] := rfl

theorem lit_fix : "fix".data = ['f', 'i', 'x'] := rfl

theorem lit_e : "e".data = ['e'] := rfl

theorem lit_ing : "ing".data = ['i', 'n', 'g'] := rfl

theorem keyword_close (v : List Char) (h : sameLetters "close".data v = true) (w : Char)
    (X : List Char) (caps : List (List Char)) (hw : isSpace w = true) :
    ∃ more, keywordRe.run (v ++ w :: X, caps) = (w :: X, caps) :: more := by
  have hk : "close".data = ['c', 'l', 'o', 's', 'e'] := rfl
  rw [hk] at h
  simp only [sameLetters_cons, sameLetters_nil] at h
  obtain ⟨a, _, rfl, ha, b, _, rfl, hb, c, _, rfl, hc, d, _, rfl, hd, e, _, rfl, he, rfl⟩ := h
  have n1 : foldEq 'f' a = false := by rcases ha with rfl | rfl <;> decide
  have n2 : foldEq 'i' e = false := by rcases he with rfl | rfl <;> decide
  simp [keywordRe, Regex.run, run_lit, lit_clos, lit_fix, lit_e, lit_ing, foldPrefix,
    foldEq_case _ _ ha, foldEq_case _ _ hb, foldEq_case _ _ hc, foldEq_case _ _ hd,
    foldEq_case _ _ he, n1, n2, clsSD_isSpace w hw]

theorem keyword_closes (v : List Char) (h : sameLetters "closes".data v = true) (w : Char)
    (X : List Char) (caps : List (List Char)) :
    ∃ more, keywordRe.run (v ++ w :: X, caps) = (w :: X, caps) :: more := by
  have hk : "closes".data = ['c', 'l', 'o', 's', 'e', 's'] := rfl
  rw [hk] at h
  simp only [sameLetters_cons, sameLetters_nil] at h
  obtain ⟨a, _, rfl, ha, b, _, rfl, hb, c, _, rfl, hc, d, _, rfl, hd, e, _, rfl, he,
    f, _, rfl, hf, rfl⟩ := h
  have n1 : foldEq 'f' a = false := by rcases ha with rfl | rfl <;> decide
  have n2 : foldEq 'i' e = false := by rcases he with rfl | rfl <;> decide
  have p1 : clsSD f = true := by rcases hf with rfl | rfl <;> decide
  simp [keywordRe, Regex.run, run_lit, lit_clos, lit_fix, lit_e, lit_ing, foldPrefix,
    foldEq_case _ _ ha, foldEq_case _ _ hb, foldEq_case _ _ hc, foldEq_case _ _ hd,
    foldEq_case _ _ he, n1, n2, p1]

theorem keyword_closed (v : List Char) (h : sameLetters "closed".data v = true) (w : Char)
    (X : List Char) (caps : List (List Char)) :
    ∃ more, keywordRe.run (v ++ w :: X, caps) = (w :: X, caps) :: more := by
  have hk : "closed".data = ['c', 'l', 'o', 's', 'e', 'd'] := rfl
  rw [hk] at h
  simp only [sameLetters_cons, sameLetters_nil] at h
  obtain ⟨a, _, rfl, ha, b, _, rfl, hb, c, _, rfl, hc, d, _, rfl, hd, e, _, rfl, he,
    f, _, rfl, hf, rfl⟩ := h
  have n1 : foldEq 'f' a = false := by rcases ha with rfl | rfl <;> decide
  have n2 : foldEq 'i' e = false := by rcases he with rfl | rfl <;> decide
  have p1 : clsSD f = true := by rcases hf with rfl | rfl <;> decide
  simp [keywordRe, Regex.run, run_lit, lit_clos, lit_fix, lit_e, lit_ing, foldPrefix,
    foldEq_case _ _ ha, foldEq_case _ _ hb, foldEq_case _ _ hc, foldEq_case _ _ hd,
    foldEq_case _ _ he, n1, n2, p1]

theorem keyword_closing (v : List Char) (h : sameLetters "closing".data v = true) (w : Char)
    (X : List Char) (caps : List (List Char)) :
    ∃ more, keywordRe.run (v ++ w :: X, caps) = (w :: X, caps) :: more := by
  have hk : "closing".data = ['c', 'l', 'o', 's', 'i', 'n', 'g'] := rfl
  rw [hk] at h
  simp only [sameLetters_cons, sameLetters_nil] at h
  obtain ⟨a, _, rfl, ha, b, _, rfl, hb, c, _, rfl, hc, d, _, rfl, hd, e, _, rfl, he,
    f, _, rfl, hf, g, _, rfl, hg, rfl⟩ := h
  have n1 : foldEq 'f' a = false := by rcases ha with rfl | rfl <;> decide
  have n2 : foldEq 'e' e = false := by rcases he with rfl | rfl <;> decide
  simp [keywordRe, Regex.run, run_lit, lit_clos, lit_fix, lit_e, lit_ing, foldPrefix,
    foldEq_case _ _ ha, foldEq_case _ _ hb, foldEq_case _ _ hc, foldEq_case _ _ hd,
    foldEq_case _ _ he, foldEq_case _ _ hf, foldEq_case _ _ hg, n1, n2]

theorem keyword_fixes (v : List Char) (h : sameLetters "fixes".data v = true) (w : Char)
    (X : List Char) (caps : List (List Char)) :
    ∃ more, keywordRe.run (v ++ w :: X, caps) = (w :: X, caps) :: more := by
  have hk : "fixes".data = ['f', 'i', 'x', 'e', 's'] := rfl
  rw [hk] at h
  simp only [sameLetters_cons, sameLetters_nil] at h
  obtain ⟨a, _, rfl, ha, b, _, rfl, hb, c, _, rfl, hc, d, _, rfl, hd, e, _, rfl, he, rfl⟩ := h
  have n1 : foldEq 'c' a = false := by rcases ha with rfl | rfl <;> decide
  have n2 : foldEq 'i' d = false := by rcases hd with rfl | rfl <;> decide
  have p1 : clsSD e = true := by rcases he with rfl | rfl <;> decide
  simp [keywordRe, Regex.run, run_lit, lit_clos, lit_fix, lit_e, lit_ing, foldPrefix,
    foldEq_case _ _ ha, foldEq_case _ _ hb, foldEq_case _ _ hc, foldEq_case _ _ hd, n1, n2, p1]

theorem keyword_fixed (v : List Char) (h : sameLetters "fixed".data v = true) (w : Char)
    (X : List Char) (caps : List (List Char)) :
    ∃ more, keywordRe.run (v ++ w :: X, caps) = (w :: X, caps) :: more := by
  have hk : "fixed".data = ['f', 'i', 'x', 'e', 'd'] := rfl
  rw [hk] at h
  simp only [sameLetters_cons, sameLetters_nil] at h
  obtain ⟨a, _, rfl, ha, b, _, rfl, hb, c, _, rfl, hc, d, _, rfl, hd, e, _, rfl, he, rfl⟩ := h
  have n1 : foldEq 'c' a = false := by rcases ha with rfl | rfl <;> decide
  have n2 : foldEq 'i' d = false := by rcases hd with rfl | rfl <;> decide
  have p1 : clsSD e = true := by rcases he with rfl | rfl <;> decide
  simp [keywordRe, Regex.run, run_lit, lit_clos, lit_fix, lit_e, lit_ing, foldPrefix,
    foldEq_case _ _ ha, foldEq_case _ _ hb, foldEq_case _ _ hc, foldEq_case _ _ hd, n1, n2, p1]

theorem keyword_fixing (v : List Char) (h : sameLetters "fixing".data v = true) (w : Char)
    (X : List Char) (caps : List (List Char)) :
    ∃ more, keywordRe.run (v ++ w :: X, caps) = (w :: X, caps) :: more := by
  have hk : "fixing".data = ['f', 'i', 'x', 'i', 'n', 'g'] := rfl
  rw [hk] at h
  simp only [sameLetters_cons, sameLetters_nil] at h
  obtain ⟨a, _, rfl, ha, b, _, rfl, hb, c, _, rfl, hc, d, _, rfl, hd, e, _, rfl, he,
    f, _, rfl, hf, rfl⟩ := h
  have n1 : foldEq 'c' a = false := by rcases ha with rfl | rfl <;> decide
  have n2 : foldEq 'e' d = false := by rcases hd with rfl | rfl <;> decide
  simp [keywordRe, Regex.run, run_lit, lit_clos, lit_fix, lit_e, lit_ing, foldPrefix,
    foldEq_case _ _ ha, foldEq_case _ _ hb, foldEq_case _ _ hc, foldEq_case _ _ hd,
    foldEq_case _ _ he, foldEq_case _ _ hf, n1, n2]

theorem keywordRe_run_keyword (v : List Char) (h : isKeyword v = true) (w : Char)
    (X : List Char) (caps : List (List Char)) (hw : isSpace w = true) :
    ∃ more, keywordRe.run (v ++ w :: X, caps) = (w :: X, caps) :: more := by
  simp only [isKeyword, spelledKeywords, List.any_cons, List.any_nil, Bool.or_false,
    Bool.or_eq_true] at h
  rcases h with h | h | h | h | h | h | h
  · exact keyword_close v h w X caps hw
  · exact keyword_closes v h w X caps
  · exact keyword_closed v h w X caps
  · exact keyword_closing v h w X caps
  · exact keyword_fixes v h w X caps
  · exact keyword_fixed v h w X caps
  · exact keyword_fixing v h w X caps

theorem head?_append_of_some {α : Type} (l1 l2 : List α) (r : α) (h : l1.head? = some r) :
    (l1 ++ l2).head? = some r := by
  cases l1 with
  | nil => simp at h
  | cons x xs => simpa using h

theorem head?_flatMap_cons {α β : Type} (f : α → List β) (x : α) (l : List α) (r : β)
    (h : (f x).head? = some r) : ((x :: l).flatMap f).head? = some r := by
  rw [List.flatMap_cons]
  exact head?_append_of_some _ _ _ h

theorem starRun_head (p : Char → Bool) (a b : List Char) (ha : ∀ x ∈ a, p x = true)
    (hb : ∀ x xs, b = x :: xs → p x = false) : (starRun p (a ++ b)).head? = some b := by
  induction a with
  | nil =>
    cases b with
    | nil => rfl
    | cons x xs => simp [starRun, hb x xs rfl]
  | cons c cs ih =>
    have hc : p c = true := ha c (List.mem_cons_self _ _)
    have ih1 := ih (fun x hx => ha x (List.mem_cons_of_mem _ hx))
    simp only [List.cons_append, starRun, hc, if_true]
    exact head?_append_of_some _ _ _ ih1

theorem run_plus_head (p : Char → Bool) (a b : List Char) (caps : List (List Char))
    (hne : a ≠ []) (ha : ∀ x ∈ a, p x = true) (hb : ∀ x xs, b = x :: xs → p x = false) :
    ((plus p).run (a ++ b, caps)).head? = some (b, caps) := by
  cases a with
  | nil => exact absurd rfl hne
  | cons c cs =>
    have hc : p c = true := ha c (List.mem_cons_self _ _)
    have h1 := starRun_head p cs b (fun x hx => ha x (List.mem_cons_of_mem _ hx)) hb
    simp [plus, Regex.run, hc, h1]

theorem extFail_nil (p : Char → Bool) (F : List Char → List MState) : extFail p F [] := by
  intro b t hb h _
  cases b with
  | nil => exact absurd rfl hb
  | cons x xs => simp at h

theorem extFail_cons (p : Char → Bool) (F : List Char → List MState) (c : Char)
    (cs : List Char) (h : p c = true → F cs = [] ∧ extFail p F cs) : extFail p F (c :: cs) := by
  intro b t hb hW hall
  cases b with
  | nil => exact absurd rfl hb
  | cons x xs =>
    simp only [List.cons_append, List.cons.injEq] at hW
    obtain ⟨rfl, hcs⟩ := hW
    obtain ⟨h1, h2⟩ := h (hall _ (List.mem_cons_self _ _))
    cases xs with
    | nil =>
      simp only [List.nil_append] at hcs
      rw [← hcs]
      exact h1
    | cons y ys =>
      exact h2 (y :: ys) t (List.cons_ne_nil _ _) hcs
        (fun z hz => hall z (List.mem_cons_of_mem _ hz))

theorem starRun_flatMap_of_fail (p : Char → Bool) (F : List Char → List MState)
    (W : List Char) (h : extFail p F W) : (starRun p W).flatMap F = F W := by
  induction W with
  | nil => simp [starRun]
  | cons c cs ih =>
    by_cases hc : p c = true
    · have h1 : F cs = [] := h [c] cs (List.cons_ne_nil _ _) rfl (by simpa using hc)
      have h2 : extFail p F cs := by
        intro b t hb hW hall
        refine h (c :: b) t (List.cons_ne_nil _ _) (by rw [hW]; rfl) ?_
        intro x hx
        rcases List.mem_cons.1 hx with rfl | hx
        · exact hc
        · exact hall x hx
      simp [starRun, hc, ih h2, h1]
    · simp [starRun, hc]

theorem starRun_flatMap_head (p : Char → Bool) (F : List Char → List MState)
    (a W : List Char) (r : MState) (ha : ∀ x ∈ a, p x = true) (hfail : extFail p F W)
    (hW : (F W).head? = some r) : ((starRun p (a ++ W)).flatMap F).head? = some r := by
  induction a with
  | nil => simpa [starRun_flatMap_of_fail p F W hfail] using hW
  | cons c cs ih =>
    have hc : p c = true := ha c (List.mem_cons_self _ _)
    have ih1 := ih (fun x hx => ha x (List.mem_cons_of_mem _ hx))
    simp only [List.cons_append, starRun, hc, if_true, List.flatMap_append]
    exact head?_append_of_some _ _ _ ih1

theorem head?_flatMap_of_head {α β : Type} (l : List α) (f : α → List β) (x : α) (r : β)
    (hl : l.head? = some x) (hf : (f x).head? = some r) : (l.flatMap f).head? = some r := by
  cases l with
  | nil => simp at hl
  | cons y ys =>
    simp only [List.head?_cons, Option.some.injEq] at hl
    subst hl
    exact head?_flatMap_cons f y ys r hf

theorem foldEq_cases (c x : Char) (h : foldEq c x = true) :
    x = c ∨ x = c.toUpper ∨ x = '\u017F' ∨ x = '\u212A' := by
  simp only [foldEq, Bool.or_eq_true, Bool.and_eq_true, beq_iff_eq] at h
  rcases h with ((h | h) | h) | h
  · exact Or.inl h
  · exact Or.inr (Or.inl h)
  · exact Or.inr (Or.inr (Or.inl h.2))
  · exact Or.inr (Or.inr (Or.inr h.2))

theorem foldEq_slash_digit (x : Char) (h : isDigit x = true) : foldEq '/' x = false := by
  cases hf : foldEq '/' x with
  | false => rfl
  | true =>
    exfalso
    rcases foldEq_cases _ _ hf with rfl | rfl | rfl | rfl <;> revert h <;> decide

theorem foldEq_i_digit (x : Char) (h : isDigit x = true) : foldEq 'i' x = false := by
  cases hf : foldEq 'i' x with
  | false => rfl
  | true =>
    exfalso
    rcases foldEq_cases _ _ hf with rfl | rfl | rfl | rfl <;> revert h <;> decide

theorem foldPrefix_self (k s : List Char) : foldPrefix k (k ++ s) = true := by
  induction k with
  | nil => simp [foldPrefix]
  | cons c cs ih => simp [foldPrefix, foldEq, ih]

theorem run_group (r : Regex) (s : List Char) (caps : List (List Char)) :
    (Regex.group r).run (s, caps)
      = (r.run (s, caps)).map (fun st1 => (st1.1, st1.2 ++ [s.take (s.length - st1.1.length)])) := by
  simp [Regex.run]

theorem digits_run (d after : List Char) (caps : List (List Char)) (hne : d ≠ [])
    (hd : ∀ x ∈ d, isDigit x = true) (hafter : startsWithDigit after = false) :
    ((Regex.group (plus isDigit)).run (d ++ after, caps)).head? = some (after, caps ++ [d]) := by
  have h := run_plus_head isDigit d after caps hne hd (by
    intro x xs hx
    subst hx
    simpa [startsWithDigit] using hafter)
  rw [run_group, List.head?_map, h]
  simp

theorem digits_fail (s : List Char) (caps : List (List Char))
    (h : startsWithDigit s = false) : (Regex.group (plus isDigit)).run (s, caps) = [] := by
  cases s with
  | nil => simp [Regex.run, plus]
  | cons x xs =>
    simp only [startsWithDigit] at h
    simp [Regex.run, plus, h]

theorem issueTail_fail (caps : List (List Char)) (t : List Char) (h : issueRefAt t = false) :
    issueTail caps t = [] := by
  have hl : "/issues/".data.length = 8 := rfl
  unfold issueTail
  rw [run_lit]
  by_cases hp : foldPrefix "/issues/".data t = true
  · simp only [issueRefAt, hp, Bool.true_and] at h
    simp [hp, hl, digits_fail _ _ h]
  · simp [hp]

theorem issueTail_head (caps : List (List Char)) (d after : List Char) (hne : d ≠ [])
    (hd : ∀ x ∈ d, isDigit x = true) (hafter : startsWithDigit after = false) :
    (issueTail caps ("/issues/".data ++ (d ++ after))).head? = some (after, caps ++ [d]) := by
  unfold issueTail
  have hl : "/issues/".data.length = 8 := rfl
  rw [run_lit, if_pos (foldPrefix_self _ _), List.flatMap_singleton, hl]
  simpa using digits_run d after caps hne hd hafter

theorem extFail_of_noLater (caps : List (List Char)) (s : List Char)
    (h : laterIssueRef s = false) :
    issueRefAt s = false ∧ extFail anyButNewline (issueTail caps) s := by
  induction s with
  | nil => exact ⟨rfl, extFail_nil _ _⟩
  | cons c cs ih =>
    simp only [laterIssueRef, Bool.or_eq_false_iff, Bool.and_eq_false_iff] at h
    refine ⟨h.1, extFail_cons _ _ _ _ ?_⟩
    intro hc
    have h2 : laterIssueRef cs = false := by
      rcases h.2 with h3 | h3
      · simp [anyButNewline] at hc
        simp [hc] at h3
      · exact h3
    exact ⟨issueTail_fail _ _ (ih h2).1, (ih h2).2⟩

theorem extFail_digits (caps : List (List Char)) (d after : List Char)
    (hd : ∀ x ∈ d, isDigit x = true) (hlater : laterIssueRef after = false) :
    issueTail caps (d ++ after) = [] ∧ extFail anyButNewline (issueTail caps) (d ++ after) := by
  induction d with
  | nil =>
    exact ⟨issueTail_fail _ _ (extFail_of_noLater caps after hlater).1,
      (extFail_of_noLater caps after hlater).2⟩
  | cons c cs ih =>
    have ih1 := ih (fun x hx => hd x (List.mem_cons_of_mem _ hx))
    have hc : isDigit c = true := hd c (List.mem_cons_self _ _)
    refine ⟨issueTail_fail _ _ ?_, extFail_cons _ _ _ _ (fun _ => ih1)⟩
    have hl : "/issues/".data = ['/', 'i', 's', 's', 'u', 'e', 's', '/'] := rfl
    simp [issueRefAt, hl, foldPrefix, foldEq_slash_digit c hc]

theorem extFail_issues (caps : List (List Char)) (d after : List Char) (hne : d ≠ [])
    (hd : ∀ x ∈ d, isDigit x = true) (hlater : laterIssueRef after = false) :
    extFail anyButNewline (issueTail caps) ("/issues/".data ++ (d ++ after)) := by
  have hl : "/issues/".data = ['/', 'i', 's', 's', 'u', 'e', 's', '/'] := rfl
  obtain ⟨h1, h2⟩ := extFail_digits caps d after hd hlater
  cases d with
  | nil => exact absurd rfl hne
  | cons c cs =>
    have hc : isDigit c = true := hd c (List.mem_cons_self _ _)
    have hi := foldEq_i_digit c hc
    rw [hl]
    refine extFail_cons _ _ _ _ (fun _ => ⟨issueTail_fail _ _ ?_, ?_⟩)
    · simp [issueRefAt, hl, foldPrefix, foldEq]
    refine extFail_cons _ _ _ _ (fun _ => ⟨issueTail_fail _ _ ?_, ?_⟩)
    · simp [issueRefAt, hl, foldPrefix, foldEq]
    refine extFail_cons _ _ _ _ (fun _ => ⟨issueTail_fail _ _ ?_, ?_⟩)
    · simp [issueRefAt, hl, foldPrefix, foldEq]
    refine extFail_cons _ _ _ _ (fun _ => ⟨issueTail_fail _ _ ?_, ?_⟩)
    · simp [issueRefAt, hl, foldPrefix, foldEq]
    refine extFail_cons _ _ _ _ (fun _ => ⟨issueTail_fail _ _ ?_, ?_⟩)
    · simp [issueRefAt, hl, foldPrefix, foldEq]
    refine extFail_cons _ _ _ _ (fun _ => ⟨issueTail_fail _ _ ?_, ?_⟩)
    · simp [issueRefAt, hl, foldPrefix, foldEq]
    refine extFail_cons _ _ _ _ (fun _ => ⟨issueTail_fail _ _ ?_, ?_⟩)
    · simp [issueRefAt, hl, foldPrefix, hi]
    exact extFail_cons _ _ _ _ (fun _ => ⟨h1, h2⟩)

theorem target_hash (d after : List Char) (caps : List (List Char)) (hne : d ≠ [])
    (hd : ∀ x ∈ d, isDigit x = true) (hafter : startsWithDigit after = false) :
    ((Regex.cat targetRe (Regex.group (plus isDigit))).run ('#' :: (d ++ after), caps)).head?
      = some (after, caps ++ [d]) := by
  have h1 : targetRe.run ('#' :: (d ++ after), caps) = [(d ++ after, caps)] := by
    have hs : "#".data = ['#'] := rfl
    have hu : "https://github".data = 'h' :: "ttps://github".data := rfl
    simp [targetRe, Regex.run, run_lit, hs, hu, foldPrefix, foldEq]
  rw [Regex.run, h1, List.flatMap_singleton]
  exact digits_run d after caps hne hd hafter

theorem run_lit_self (k X : List Char) (caps : List (List Char)) :
    (lit k).run (k ++ X, caps) = [(X, caps)] := by
  rw [run_lit, if_pos (foldPrefix_self _ _)]
  simp

theorem run_url_branch (z : Char) (Z : List Char) (caps : List (List Char))
    (hz : anyButNewline z = true) :
    (Regex.cat targetRe (Regex.group (plus isDigit))).run
        ("https://github.com/".data ++ z :: Z, caps)
      = (starRun anyButNewline Z).flatMap (issueTail caps) := by
  have hs : "#".data = ['#'] := rfl
  have hu : "https://github".data = 'h' :: "ttps://github".data := rfl
  have hsplit : "https://github.com/".data ++ z :: Z
      = "https://github".data ++ ('.' :: ("com/".data ++ z :: Z)) := rfl
  have h1 : (lit "#".data).run
      ("https://github".data ++ ('.' :: ("com/".data ++ z :: Z)), caps) = [] := by
    rw [run_lit]
    simp [hs, hu, foldPrefix, foldEq]
  have h2 := run_lit_self "https://github".data ('.' :: ("com/".data ++ z :: Z)) caps
  have h2b : (Regex.cls anyButNewline).run ('.' :: ("com/".data ++ z :: Z), caps)
      = [("com/".data ++ z :: Z, caps)] := by
    simp [Regex.run, anyButNewline]
  have h2c := run_lit_self "com/".data (z :: Z) caps
  have h3 : (plus anyButNewline).run (z :: Z, caps)
      = (starRun anyButNewline Z).map (fun s1 => (s1, caps)) := by
    simp [plus, Regex.run, hz]
  rw [hsplit, Regex.run, targetRe, Regex.run, h1, List.nil_append, Regex.run, h2,
    List.flatMap_singleton, Regex.run, h2b, List.flatMap_singleton, Regex.run, h2c,
    List.flatMap_singleton, Regex.run, h3, List.flatMap_assoc, List.flatMap_map]
  rfl

theorem target_url (mid d after : List Char) (caps : List (List Char)) (hmid : mid ≠ [])
    (hany : ∀ x ∈ mid, anyButNewline x = true) (hne : d ≠ [])
    (hd : ∀ x ∈ d, isDigit x = true) (hafter : startsWithDigit after = false)
    (hlater : laterIssueRef after = false) :
    ((Regex.cat targetRe (Regex.group (plus isDigit))).run
        ("https://github.com/".data ++ ((mid ++ "/issues/".data) ++ (d ++ after)), caps)).head?
      = some (after, caps ++ [d]) := by
  cases mid with
  | nil => exact absurd rfl hmid
  | cons z zs =>
    have hz : anyButNewline z = true := hany z (List.mem_cons_self _ _)
    have e : "https://github.com/".data ++ ((z :: zs ++ "/issues/".data) ++ (d ++ after))
        = "https://github.com/".data ++ z :: (zs ++ ("/issues/".data ++ (d ++ after))) := by
      simp
    rw [e, run_url_branch z _ caps hz]
    exact starRun_flatMap_head anyButNewline (issueTail caps) zs _ _
      (fun x hx => hany x (List.mem_cons_of_mem _ hx))
      (extFail_issues caps d after hne hd hlater)
      (issueTail_head caps d after hne hd hafter)

theorem afterKeyword_head (ws Y : List Char) (caps : List (List Char)) (r : MState)
    (hne : ws ≠ []) (hws : ∀ x ∈ ws, isSpace x = true)
    (hY : ∀ x xs, Y = x :: xs → isSpace x = false)
    (hT : ((Regex.cat targetRe (Regex.group (plus isDigit))).run (Y, caps)).head? = some r) :
    ((Regex.cat (.star notSpace) (.cat (plus isSpace)
        (.cat targetRe (.group (plus isDigit))))).run (ws ++ Y, caps)).head? = some r := by
  cases ws with
  | nil => exact absurd rfl hne
  | cons w ws1 =>
    have hw : isSpace w = true := hws w (List.mem_cons_self _ _)
    have h1 : (Regex.star notSpace).run (w :: ws1 ++ Y, caps) = [(w :: ws1 ++ Y, caps)] := by
      simp [Regex.run, starRun, notSpace, hw]
    rw [Regex.run, h1, List.flatMap_singleton, Regex.run]
    exact head?_flatMap_of_head _ _ _ _ (run_plus_head isSpace (w :: ws1) Y caps hne hws hY) hT

theorem lead_not_space (r : Reference) (Y : List Char) (x : Char) (xs : List Char)
    (h : r.lead ++ Y = x :: xs) : isSpace x = false := by
  cases r with
  | hash kw ws d =>
    simp only [Reference.lead, List.cons_append, List.nil_append, List.cons.injEq] at h
    rw [← h.1]
    decide
  | url kw ws owner repo d =>
    have hu : "https://github.com/".data = 'h' :: "ttps://github.com/".data := rfl
    simp only [Reference.lead, hu, List.cons_append, List.cons.injEq] at h
    rw [← h.1]
    decide

theorem target_reference (r : Reference) (after : List Char) (caps : List (List Char))
    (hwf : r.wellFormed = true) (hfit : r.fits after = true) :
    ((Regex.cat targetRe (Regex.group (plus isDigit))).run
        (r.lead ++ r.digits ++ after, caps)).head? = some (after, caps ++ [r.digits]) := by
  cases r with
  | hash kw ws d =>
    simp only [Reference.wellFormed, Reference.fits, Reference.digits, Bool.and_eq_true,
      Bool.not_eq_true', List.all_eq_true, List.isEmpty_eq_false, ne_eq, Bool.and_true] at hwf hfit
    simp only [Reference.lead, Reference.digits, List.cons_append, List.nil_append]
    exact target_hash d after caps hwf.1.2 hwf.2 hfit
  | url kw ws owner repo d =>
    simp only [Reference.wellFormed, Reference.fits, Reference.digits, Bool.and_eq_true,
      Bool.not_eq_true', List.all_eq_true, List.isEmpty_eq_false, ne_eq] at hwf hfit
    simp only [Reference.lead, Reference.digits, List.append_assoc]
    have h := target_url (owner ++ '/' :: repo) d after caps (by simp) (by
      intro x hx
      rcases List.mem_append.1 hx with h1 | h1
      · exact hwf.2.1 x h1
      · rcases List.mem_cons.1 h1 with rfl | h2
        · decide
        · exact hwf.2.2 x h2) hwf.1.1.2 hwf.1.2 hfit.1 hfit.2
    simpa only [List.append_assoc] using h

theorem matchAt_reference (r : Reference) (after : List Char)
    (hwf : r.wellFormed = true) (hfit : r.fits after = true) :
    matchAt (r.text ++ after) = some (after, [r.digits]) := by
  have hT := target_reference r after [] hwf hfit
  have hwf1 := hwf
  simp only [Reference.wellFormed, Bool.and_eq_true, Bool.not_eq_true', List.all_eq_true,
    List.isEmpty_eq_false, ne_eq] at hwf1
  obtain ⟨⟨⟨⟨⟨hkw, hne⟩, hws⟩, _⟩, _⟩, _⟩ := hwf1
  have h2 := afterKeyword_head r.space (r.lead ++ r.digits ++ after) [] _ hne hws
    (fun x xs hx => lead_not_space r (r.digits ++ after) x xs (by simpa using hx)) hT
  cases hsp : r.space with
  | nil => exact absurd hsp hne
  | cons w ws1 =>
    rw [hsp] at h2
    have hw : isSpace w = true := hws w (by rw [hsp]; exact List.mem_cons_self _ _)
    obtain ⟨more, hm⟩ := keywordRe_run_keyword r.keyword hkw w
      (ws1 ++ (r.lead ++ r.digits ++ after)) [] hw
    have ht : r.text ++ after = r.keyword ++ w :: (ws1 ++ (r.lead ++ r.digits ++ after)) := by
      simp [Reference.text, hsp]
    rw [matchAt, ht, regex, Regex.run, hm]
    exact head?_flatMap_cons _ _ _ _ h2

theorem attempt_reference (r : Reference) (after : List Char)
    (hwf : r.wellFormed = true) (hfit : r.fits after = true) :
    attempt (r.text ++ after) = some ([r.text, r.digits], after) := by
  simp [attempt, matchAt_reference r after hwf hfit]

theorem run_cat (a b : Regex) (st : MState) :
    (Regex.cat a b).run st = (a.run st).flatMap (fun st1 => b.run st1) := by
  simp [Regex.run]

theorem run_alt (a b : Regex) (st : MState) :
    (Regex.alt a b).run st = a.run st ++ b.run st := by
  simp [Regex.run]

theorem keywordRe_run_noStem (s : List Char) (caps : List (List Char))
    (h : startsStem s = false) : keywordRe.run (s, caps) = [] := by
  unfold startsStem at h
  obtain ⟨h1, h2⟩ := Bool.or_eq_false_iff.1 h
  rw [keywordRe, run_alt, run_cat, run_cat, run_lit, run_lit, h1, h2]
  rfl

theorem attempt_noStem (s : List Char) (h : startsStem s = false) : attempt s = none := by
  rw [attempt, matchAt, regex, run_cat, keywordRe_run_noStem s [] h]
  rfl

theorem findSubmatch_noStem (s : List Char) (h : hasStem s = false) :
    findSubmatch s = none := by
  induction s with
  | nil => exact attempt_noStem [] rfl
  | cons c cs ih =>
    simp only [hasStem, Bool.or_eq_false_iff] at h
    simp [findSubmatch, attempt_noStem _ h.1, ih h.2]

theorem findSubmatch_of_attempt (s : List Char) (m : List (List Char) × List Char)
    (h : attempt s = some m) : findSubmatch s = some m := by
  cases s with
  | nil => exact h
  | cons c cs => simp [findSubmatch, h]

theorem keyword_first (v : List Char) (h : isKeyword v = true) :
    ∃ x xs, v = x :: xs ∧ (x = 'c' ∨ x = 'C' ∨ x = 'f' ∨ x = 'F') := by
  simp only [isKeyword, spelledKeywords, List.any_cons, List.any_nil, Bool.or_false,
    Bool.or_eq_true] at h
  have hc : ∀ k : List Char, sameLetters ('c' :: k) v = true →
      ∃ x xs, v = x :: xs ∧ (x = 'c' ∨ x = 'C' ∨ x = 'f' ∨ x = 'F') := by
    intro k hk
    obtain ⟨x, xs, rfl, hx, _⟩ := (sameLetters_cons _ _ _).1 hk
    refine ⟨x, xs, rfl, ?_⟩
    rcases hx with rfl | rfl
    · exact Or.inl rfl
    · exact Or.inr (Or.inl (by decide))
  have hf : ∀ k : List Char, sameLetters ('f' :: k) v = true →
      ∃ x xs, v = x :: xs ∧ (x = 'c' ∨ x = 'C' ∨ x = 'f' ∨ x = 'F') := by
    intro k hk
    obtain ⟨x, xs, rfl, hx, _⟩ := (sameLetters_cons _ _ _).1 hk
    refine ⟨x, xs, rfl, ?_⟩
    rcases hx with rfl | rfl
    · exact Or.inr (Or.inr (Or.inl rfl))
    · exact Or.inr (Or.inr (Or.inr (by decide)))
  rcases h with h | h | h | h | h | h | h
  · exact hc _ h
  · exact hc _ h
  · exact hc _ h
  · exact hc _ h
  · exact hf _ h
  · exact hf _ h
  · exact hf _ h

theorem startsStem_straddle (c : Char) (f : List Char) (x : Char) (R : List Char)
    (hf : hasStem (c :: f) = false) (hx : x = 'c' ∨ x = 'C' ∨ x = 'f' ∨ x = 'F') :
    startsStem (c :: f ++ x :: R) = false := by
  have h1 : startsStem (c :: f) = false := by
    simp only [hasStem, Bool.or_eq_false_iff] at hf
    exact hf.1
  have nl : foldEq 'l' x = false := by rcases hx with rfl | rfl | rfl | rfl <;> decide
  have no : foldEq 'o' x = false := by rcases hx with rfl | rfl | rfl | rfl <;> decide
  have ns : foldEq 's' x = false := by rcases hx with rfl | rfl | rfl | rfl <;> decide
  have ni : foldEq 'i' x = false := by rcases hx with rfl | rfl | rfl | rfl <;> decide
  have nx : foldEq 'x' x = false := by rcases hx with rfl | rfl | rfl | rfl <;> decide
  rcases f with _ | ⟨b, _ | ⟨e, _ | ⟨g, f1⟩⟩⟩
  · simp [startsStem, lit_clos, lit_fix, foldPrefix, nl, ni]
  · simp [startsStem, lit_clos, lit_fix, foldPrefix, no, nx]
  · simp only [startsStem, lit_clos, lit_fix, foldPrefix, Bool.and_true, Bool.and_false,
      Bool.or_eq_false_iff, Bool.false_or] at h1 ⊢
    simp [ns, h1]
  · simp only [startsStem, lit_clos, lit_fix, foldPrefix, Bool.and_true] at h1 ⊢
    simpa [foldPrefix] using h1

theorem findSubmatch_filler (f : List Char) (x : Char) (R : List Char)
    (hf : hasStem f = false) (hx : x = 'c' ∨ x = 'C' ∨ x = 'f' ∨ x = 'F') :
    findSubmatch (f ++ x :: R) = findSubmatch (x :: R) := by
  induction f with
  | nil => rfl
  | cons c cs ih =>
    have h2 : hasStem cs = false := by
      simp only [hasStem, Bool.or_eq_false_iff] at hf
      exact hf.2
    have h3 := attempt_noStem _ (startsStem_straddle c cs x R hf hx)
    rw [List.cons_append] at h3 ⊢
    rw [findSubmatch, h3]
    exact ih h2

theorem findSubmatch_segment (f : List Char) (r : Reference) (after : List Char)
    (hf : hasStem f = false) (hwf : r.wellFormed = true) (hfit : r.fits after = true) :
    findSubmatch (f ++ (r.text ++ after)) = some ([r.text, r.digits], after) := by
  have hkw : isKeyword r.keyword = true := by
    simp only [Reference.wellFormed, Bool.and_eq_true] at hwf
    exact hwf.1.1.1.1.1
  obtain ⟨x, xs, hv, hx⟩ := keyword_first r.keyword hkw
  have ht : r.text ++ after = x :: (xs ++ (r.space ++ (r.lead ++ r.digits)) ++ after) := by
    simp [Reference.text, hv]
  have h1 := findSubmatch_of_attempt _ _ (attempt_reference r after hwf hfit)
  rw [ht] at h1 ⊢
  rw [findSubmatch_filler f x _ hf hx]
  exact h1

theorem length_le_textOf (segs : List (List Char × Reference)) (tail : List Char) :
    segs.length ≤ (textOf segs tail).length := by
  induction segs with
  | nil => exact Nat.zero_le _
  | cons s rest ih =>
    obtain ⟨f, r⟩ := s
    have h1 : 1 ≤ r.lead.length := by
      cases r <;> simp [Reference.lead]
    simp only [textOf, Reference.text, List.length_append, List.length_cons]
    omega

theorem findAllAux_segments (segs : List (List Char × Reference)) (tail : List Char)
    (fuel : Nat) (hfuel : segs.length < fuel) (h : separated segs tail = true) :
    findAllAux fuel (textOf segs tail) = segs.map (fun s => [s.2.text, s.2.digits]) := by
  induction segs generalizing fuel with
  | nil =>
    simp only [separated, Bool.not_eq_true'] at h
    cases fuel with
    | zero => rfl
    | succ n => simp [findAllAux, textOf, findSubmatch_noStem tail h]
  | cons s rest ih =>
    obtain ⟨f, r⟩ := s
    simp only [separated, Bool.and_eq_true, Bool.not_eq_true'] at h
    obtain ⟨⟨⟨hf, hwf⟩, hfit⟩, hrest⟩ := h
    cases fuel with
    | zero => exact absurd hfuel (Nat.not_lt_zero _)
    | succ n =>
      have hn : rest.length < n := by simpa using hfuel
      simp [findAllAux, textOf, findSubmatch_segment f r _ hf hwf hfit, ih n hn hrest]

theorem extract_inner (a b : String) (acc : List String) :
    (List.range [a, b].length).foldl
      (fun acc1 groupIdx =>
        if SubexpNames.getD groupIdx "" == "issue" then acc1 ++ [[a, b].getD 1 ""] else acc1)
      acc = acc ++ [b] := by
  have h2 : List.range [a, b].length = [0, 1] := rfl
  have hn : (("" : String) == "issue") = false := by decide
  rw [h2]
  simp [SubexpNames]

theorem extract_fold (ms : List (List Char × List Char)) (issues : List String) :
    (ms.map (fun m => [String.mk m.1, String.mk m.2])).foldl
      (fun acc m =>
        (List.range m.length).foldl
          (fun acc1 groupIdx =>
            if SubexpNames.getD groupIdx "" == "issue" then acc1 ++ [m.getD 1 ""] else acc1)
          acc)
      issues = issues ++ ms.map (fun m => String.mk m.2) := by
  induction ms generalizing issues with
  | nil => simp
  | cons m rest ih =>
    rw [List.map_cons, List.foldl_cons, extract_inner, ih]
    simp

theorem extractIssueNumbers_textOf (segs : List (List Char × Reference)) (tail : List Char)
    (issues : List String) (h : separated segs tail = true) :
    extractIssueNumbers issues (String.mk (textOf segs tail))
      = issues ++ segs.map (fun s => s.2.number) := by
  have hfuel : segs.length < (String.mk (textOf segs tail)).length + 1 :=
    Nat.lt_succ_of_le (length_le_textOf segs tail)
  have h1 := findAllAux_segments segs tail _ hfuel h
  have h2 := extract_fold (segs.map (fun s => (s.2.text, s.2.digits))) issues
  simp only [List.map_map] at h2
  simp only [extractIssueNumbers, FindAllStringSubmatch, h1, List.map_map]
  simpa [Function.comp_def, Reference.number] using h2

/-! ## The issue reference extractor on closing references -/

/-- C2: the bare keyword `fix` is not recognised, in any letter case: on
`fix #12` the extractor returns the empty list, not `["12"]`. -/
theorem extractIssueNumbers_bare_fix :
    extractIssueNumbers [] "fix #12" = [] ∧ extractIssueNumbers [] "Fix #12" = [] ∧
      extractIssueNumbers [] "FIX #12" = [] := by
  decide

/-- The seven keywords that the pattern spells (`close`, `closes`, `closed`,
`closing`, `fixes`, `fixed`, `fixing`) are recognised in any letter case: on
`<keyword> #<d>` with a non-empty digit string `d` the extractor returns
`[d]`. -/
theorem extractIssueNumbers_spelled_keyword (v d : List Char) (hv : isKeyword v = true)
    (hne : d ≠ []) (hd : d.all isDigit = true) :
    extractIssueNumbers [] (String.mk (v ++ ' ' :: '#' :: d)) = [String.mk d] := by
  have h := extractIssueNumbers_textOf [([], .hash v [' '] d)] [] [] (by
    have h1 : d.isEmpty = false := by
      cases d with
      | nil => exact absurd rfl hne
      | cons x xs => rfl
    have h2 : (([' '] : List Char).all isSpace) = true := by decide
    simp only [separated, hasStem, textOf, Reference.wellFormed, Reference.fits,
      Reference.keyword, Reference.space, Reference.digits, hv, hd, h1, h2, startsWithDigit]
    rfl)
  simpa [textOf, Reference.text, Reference.keyword, Reference.space, Reference.lead,
    Reference.digits, Reference.number] using h

/-- C3, as stated, fails: of two well-formed URL references on one line only
the number of the last one is reported. -/
theorem extractIssueNumbers_same_line_urls :
    (∀ s ∈ sameLineExample, s.2.wellFormed = true ∧ hasStem s.1 = false) ∧
    String.mk (textOf sameLineExample [])
      = "closes https://github.com/o/r/issues/1 closes https://github.com/o/r/issues/2" ∧
    sameLineExample.map (fun s => s.2.number) = ["1", "2"] ∧
    extractIssueNumbers [] (String.mk (textOf sameLineExample [])) = ["2"] := by
  decide

/-- C3, amended: when the text is made of closing references and fillers, the
references are spelled with one of the seven keywords of the pattern, the
fillers hold no keyword stem, no reference is followed by a digit and no URL
reference is followed on its line by a further `/issues/<digit>`, the extractor
appends the numbers of all the references, in order and with their duplicates,
after the entries already in the list. -/
theorem extractIssueNumbers_references (segs : List (List Char × Reference))
    (tail : List Char) (issues : List String) (h : separated segs tail = true) :
    extractIssueNumbers issues (String.mk (textOf segs tail))
      = issues ++ segs.map (fun s => s.2.number) :=
  extractIssueNumbers_textOf segs tail issues h

/-- C3 on the example of the specification: `["42", "99"]` is appended. -/
theorem extractIssueNumbers_references_witness :
    separated specExample [] = true ∧
    String.mk (textOf specExample [])
      = "Fixes #42 and closes https://github.com/o/r/issues/99" ∧
    specExample.map (fun s => s.2.number) = ["42", "99"] ∧
    extractIssueNumbers ["7"] (String.mk (textOf specExample []))
      = ["7"] ++ specExample.map (fun s => s.2.number) :=
  ⟨by decide, by decide, by decide,
    extractIssueNumbers_references specExample [] ["7"] (by decide)⟩

/-! ## Every match consumes input: the bound on the number of matches is never reached -/

theorem starRun_length (p : Char → Bool) (s s1 : List Char) (h : s1 ∈ starRun p s) :
    s1.length ≤ s.length := by
  induction s with
  | nil =>
    simp only [starRun, List.mem_singleton] at h
    rw [h]
  | cons c cs ih =>
    unfold starRun at h
    split at h
    · rcases List.mem_append.1 h with h1 | h1
      · exact Nat.le_succ_of_le (ih h1)
      · simp only [List.mem_singleton] at h1
        rw [h1]
    · simp only [List.mem_singleton] at h
      rw [h]

theorem run_length (r : Regex) (st st1 : MState) (h : st1 ∈ r.run st) :
    st1.1.length ≤ st.1.length := by
  induction r generalizing st st1 with
  | empty =>
    simp only [Regex.run, List.mem_singleton] at h
    rw [h]
  | cls p =>
    obtain ⟨s, caps⟩ := st
    cases s with
    | nil => simp [Regex.run] at h
    | cons c cs =>
      simp only [Regex.run] at h
      split at h
      · simp only [List.mem_singleton] at h
        rw [h]
        exact Nat.le_succ _
      · simp at h
  | cat a b iha ihb =>
    simp only [Regex.run, List.mem_flatMap] at h
    obtain ⟨st2, h1, h2⟩ := h
    exact Nat.le_trans (ihb _ _ h2) (iha _ _ h1)
  | alt a b iha ihb =>
    simp only [Regex.run, List.mem_append] at h
    rcases h with h | h
    · exact iha _ _ h
    · exact ihb _ _ h
  | star p =>
    obtain ⟨s, caps⟩ := st
    simp only [Regex.run, List.mem_map] at h
    obtain ⟨s1, h1, rfl⟩ := h
    exact starRun_length p s s1 h1
  | group r ih =>
    obtain ⟨s, caps⟩ := st
    simp only [Regex.run, List.mem_map] at h
    obtain ⟨st2, h1, rfl⟩ := h
    exact ih (s, caps) st2 h1

theorem run_plus_length (p : Char → Bool) (st st1 : MState) (h : st1 ∈ (plus p).run st) :
    st1.1.length < st.1.length := by
  obtain ⟨s, caps⟩ := st
  rw [plus, run_cat, List.mem_flatMap] at h
  obtain ⟨st2, h1, h2⟩ := h
  have h3 := run_length _ _ _ h2
  cases s with
  | nil => simp [Regex.run] at h1
  | cons c cs =>
    simp only [Regex.run] at h1
    split at h1
    · simp only [List.mem_singleton] at h1
      rw [h1] at h3
      exact Nat.lt_succ_of_le h3
    · simp at h1

theorem regex_run_length (st st1 : MState) (h : st1 ∈ regex.run st) :
    st1.1.length < st.1.length := by
  rw [regex, run_cat, List.mem_flatMap] at h
  obtain ⟨st2, h1, h2⟩ := h
  rw [run_cat, List.mem_flatMap] at h2
  obtain ⟨st3, h3, h4⟩ := h2
  rw [run_cat, List.mem_flatMap] at h4
  obtain ⟨st4, h5, h6⟩ := h4
  have l1 := run_length _ _ _ h1
  have l2 := run_length _ _ _ h3
  have l3 := run_plus_length _ _ _ h5
  have l4 := run_length _ _ _ h6
  omega

theorem attempt_length (s : List Char) (m : List (List Char)) (rest : List Char)
    (h : attempt s = some (m, rest)) : rest.length < s.length := by
  unfold attempt matchAt at h
  cases hr : regex.run (s, []) with
  | nil => simp [hr] at h
  | cons st more =>
    simp only [hr, List.head?_cons, Option.map_some', Option.some.injEq, Prod.mk.injEq] at h
    have h1 := regex_run_length (s, []) st (by rw [hr]; exact List.mem_cons_self _ _)
    rw [← h.2]
    exact h1

theorem findSubmatch_length (s : List Char) (m : List (List Char)) (rest : List Char)
    (h : findSubmatch s = some (m, rest)) : rest.length < s.length := by
  induction s with
  | nil => exact attempt_length [] m rest h
  | cons c cs ih =>
    unfold findSubmatch at h
    split at h
    · rename_i r hr
      simp only [Option.some.injEq] at h
      subst h
      exact attempt_length _ _ _ hr
    · exact Nat.lt_succ_of_lt (ih h)

theorem findAllAux_fuel_aux (n : Nat) :
    ∀ (fuel1 fuel2 : Nat) (s : List Char), s.length ≤ n → s.length < fuel1 →
      s.length < fuel2 → findAllAux fuel1 s = findAllAux fuel2 s := by
  induction n with
  | zero =>
    intro fuel1 fuel2 s hn h1 h2
    cases fuel1 with
    | zero => exact absurd h1 (Nat.not_lt_zero _)
    | succ k1 =>
      cases fuel2 with
      | zero => exact absurd h2 (Nat.not_lt_zero _)
      | succ k2 =>
        unfold findAllAux
        cases hf : findSubmatch s with
        | none => rfl
        | some r =>
          obtain ⟨m, rest⟩ := r
          have := findSubmatch_length s m rest hf
          omega
  | succ n ih =>
    intro fuel1 fuel2 s hn h1 h2
    cases fuel1 with
    | zero => exact absurd h1 (Nat.not_lt_zero _)
    | succ k1 =>
      cases fuel2 with
      | zero => exact absurd h2 (Nat.not_lt_zero _)
      | succ k2 =>
        unfold findAllAux
        cases hf : findSubmatch s with
        | none => rfl
        | some r =>
          obtain ⟨m, rest⟩ := r
          have hl := findSubmatch_length s m rest hf
          simp only
          rw [ih k1 k2 rest (by omega) (by omega) (by omega)]

/-- More fuel than `FindAllStringSubmatch` passes changes nothing: the bound on
the number of matches is never reached. -/
theorem findAllAux_fuel (fuel : Nat) (s : List Char) (h : s.length < fuel) :
    findAllAux fuel s = findAllAux (s.length + 1) s :=
  findAllAux_fuel_aux s.length fuel (s.length + 1) s (Nat.le_refl _) h (Nat.lt_succ_self _)

/-! ## The event classifiers -/

theorem key_beq (p a b : String) : ((p ++ "_" ++ a) == (p ++ "_" ++ b)) = (a == b) := by
  have h : (p ++ "_" ++ a = p ++ "_" ++ b) ↔ a = b := by
    constructor
    · intro h
      have h1 := congrArg String.data h
      simp only [String.data_append, List.append_cancel_left_eq] at h1
      exact String.ext h1
    · intro h
      rw [h]
  by_cases hab : a = b
  · simp [hab]
  · have h2 : ¬ (p ++ "_" ++ a = p ++ "_" ++ b) := fun h3 => hab (h.1 h3)
    simp [hab, h2]

theorem issuesKey_test (lit1 : String) (a : String) :
    (("issues" ++ "_" ++ lit1) == ("issues" ++ "_" ++ a)) = (lit1 == a) :=
  key_beq _ _ _

theorem closed_test (a : String) : ("issues_closed" == "issues" ++ "_" ++ a) = ("closed" == a) :=
  issuesKey_test "closed" a

theorem reopened_test (a : String) :
    ("issues_reopened" == "issues" ++ "_" ++ a) = ("reopened" == a) :=
  issuesKey_test "reopened" a

theorem opened_test (a : String) : ("issues_opened" == "issues" ++ "_" ++ a) = ("opened" == a) :=
  issuesKey_test "opened" a

theorem milestoned_test (a : String) :
    ("issues_milestoned" == "issues" ++ "_" ++ a) = ("milestoned" == a) :=
  issuesKey_test "milestoned" a

theorem demilestoned_test (a : String) :
    ("issues_demilestoned" == "issues" ++ "_" ++ a) = ("demilestoned" == a) :=
  issuesKey_test "demilestoned" a

theorem regularProcessing_unmapped (g : Globals) (w : World) (config : RepoConfig)
    (event : IssuesEvent) (effs : List Effect)
    (h : mapGet ("issues" ++ "_" ++ event.Action) g.stateMapping = none) :
    regularProcessing g w config event effs = ⟨Outcome.nil, g, effs⟩ := by
  unfold regularProcessing
  rw [h]
  split <;> rfl

theorem processIssues_unmapped (w : World) (config : RepoConfig) (eventKey : String)
    (issues : List String) (g : Globals) (effs : List Effect)
    (h : mapGet eventKey g.stateMapping = none) :
    (processIssues w config eventKey g issues effs).ret = Outcome.nil ∧
    (processIssues w config eventKey g issues effs).effects = effs := by
  induction issues generalizing g with
  | nil => exact ⟨rfl, rfl⟩
  | cons number rest ih =>
    unfold processIssues
    split
    · exact ih g h
    · split
      · exact ih _ h
      · rw [h]
        exact ih g h

theorem getIssueColumn_effects (w : World) (config : RepoConfig) (issue : String) :
    (getIssueColumn w config issue).2 = [Effect.BoardGet config.Board.GithubRepo issue] := by
  unfold getIssueColumn
  repeat' split
  all_goals rfl

theorem clearProgressLabel_noMove (issue : Issue) :
    (clearProgressLabel issue).all (fun e => !e.isBoardMove) = true := by
  simp only [clearProgressLabel, List.all_eq_true, List.mem_map]
  rintro e ⟨l, _, rfl⟩
  rfl

/-- C4, as stated, fails for `handleIssuesEvent`: with `issues_closed` and
`issues_reopened` not in the mapping table, an `issues_closed` event removes
the progress label of the issue, or returns the error of the label listing,
and an `issues_reopened` event on a locked issue moves the issue to the done
column. -/
theorem unmapped_key_exceptions :
    mapGet "issues_closed" sampleGlobals.stateMapping = none ∧
    mapGet "issues_reopened" sampleGlobals.stateMapping = none ∧
    (handleIssuesEvent sampleGlobals World.quiet sampleConfig ⟨"closed", sampleIssue⟩).effects
      = [Effect.ListLabelsByIssue 5, Effect.RemoveLabelForIssue 5 "progress/review"] ∧
    (handleIssuesEvent sampleGlobals World.noLabels sampleConfig ⟨"closed", sampleIssue⟩).ret
      = Outcome.error "failed to list labels for Issue https://github.com/o/r/issues/5: timeout" ∧
    (handleIssuesEvent sampleGlobals World.quiet sampleConfig ⟨"reopened", lockedIssue⟩).effects
      = [Effect.BoardPost "1234" "5" "c3", Effect.Unlock 5] := by
  decide

/-- C4, amended: for an event key that is not in the mapping table,
`handlePullRequestEvent` makes no board move and no label call and returns
nil; so does `handleIssuesEvent` for every event but `issues_closed` and
`issues_reopened` on a locked issue, the two rules that come before the lookup;
an unmapped `issues_closed` event still makes no board move. -/
theorem unmapped_key_no_action (g : Globals) (w : World) (config : RepoConfig)
    (ie : IssuesEvent) (pe : PullRequestEvent) :
    (mapGet ("pull_request" ++ "_" ++ pe.Action) g.stateMapping = none →
      (handlePullRequestEvent g w config pe).quiet) ∧
    (mapGet ("issues" ++ "_" ++ ie.Action) g.stateMapping = none →
      ie.Action ≠ "closed" → ¬ (ie.Action = "reopened" ∧ ie.Issue.Locked = true) →
      (handleIssuesEvent g w config ie).quiet) ∧
    (mapGet ("issues" ++ "_" ++ ie.Action) g.stateMapping = none → ie.Action = "closed" →
      (handleIssuesEvent g w config ie).effects.all (fun e => !e.isBoardMove) = true) := by
  refine ⟨?_, ?_, ?_⟩
  · intro h
    unfold handlePullRequestEvent Result.quiet
    simp only
    split
    · exact ⟨rfl, by simp [Effect.isBoardMove, Effect.isLabelCall]⟩
    · have h1 := processIssues_unmapped w config _
        (referencedIssues ‹_› pe.PullRequest.Body) g
        [Effect.ListCommits pe.PullRequest.Number] h
      rw [h1.1, h1.2]
      exact ⟨rfl, by simp [Effect.isBoardMove, Effect.isLabelCall]⟩
  · intro h hclosed hreopen
    have h1 : ("closed" == ie.Action) = false := by
      simpa using fun h2 : "closed" = ie.Action => hclosed h2.symm
    have h2 : ("reopened" == ie.Action && ie.Issue.Locked) = false := by
      cases h3 : ("reopened" == ie.Action && ie.Issue.Locked) with
      | false => rfl
      | true =>
        simp only [Bool.and_eq_true, beq_iff_eq] at h3
        exact absurd ⟨h3.1.symm, h3.2⟩ hreopen
    unfold handleIssuesEvent Result.quiet
    simp only [closed_test, reopened_test, opened_test, milestoned_test, demilestoned_test,
      h1, h2, regularProcessing_unmapped g w config ie _ h, Bool.false_eq_true, if_false]
    repeat' split
    all_goals first
      | exact ⟨rfl, rfl⟩
      | simp [Effect.isBoardMove, Effect.isLabelCall, getIssueColumn_effects]
  · intro h hclosed
    unfold handleIssuesEvent
    have h1 : ("closed" == "closed") = true := by decide
    simp only [closed_test, hclosed, regularProcessing_unmapped g w config ie _ h, h1, if_true]
    repeat' split
    all_goals first
      | simp [Effect.isBoardMove]; done
      | simpa [Effect.isBoardMove] using clearProgressLabel_noMove ie.Issue

/-- C4 on the sample state: the actions `labeled` of issues and of pull
requests are not mapped, and neither handler acts on them. -/
theorem unmapped_key_no_action_witness :
    mapGet ("pull_request" ++ "_" ++ "labeled") sampleGlobals.stateMapping = none ∧
    mapGet ("issues" ++ "_" ++ "labeled") sampleGlobals.stateMapping = none ∧
    (handlePullRequestEvent sampleGlobals World.twoCommits sampleConfig
      ⟨"labeled", ⟨9, "closes #5"⟩⟩).quiet ∧
    (handleIssuesEvent sampleGlobals World.quiet sampleConfig ⟨"labeled", sampleIssue⟩).quiet :=
  ⟨by decide, by decide,
    (unmapped_key_no_action sampleGlobals World.twoCommits sampleConfig
      ⟨"labeled", sampleIssue⟩ ⟨"labeled", ⟨9, "closes #5"⟩⟩).1 (by decide),
    (unmapped_key_no_action sampleGlobals World.quiet sampleConfig
      ⟨"labeled", sampleIssue⟩ ⟨"labeled", ⟨9, "closes #5"⟩⟩).2.1 (by decide) (by decide)
      (by decide)⟩

theorem mapGet_mapDelete {α : Type} (k : String) (m : List (String × α)) :
    mapGet k (mapDelete k m) = none := by
  induction m with
  | nil => rfl
  | cons e rest ih =>
    obtain ⟨k1, v⟩ := e
    unfold mapDelete at ih ⊢
    by_cases h : k1 = k
    · simpa [List.filter, h] using ih
    · have h1 : (k1 != k) = true := by simpa using h
      have h2 : (k1 == k) = false := by simpa using h
      simp only [List.filter, h1, mapGet, h2]
      simpa using ih

/-- C5, as stated, fails: when the move to the done column fails, a reopened
locked issue is not unlocked and keeps its marker; and when the move succeeds,
the calls are the move and the unlock, without any label call. -/
theorem reopened_locked_move_fails :
    (handleIssuesEvent markedGlobals World.boardDown sampleConfig
        ⟨"reopened", lockedIssue⟩).effects = [Effect.BoardPost "1234" "5" "c3"] ∧
    mapGet "5" (handleIssuesEvent markedGlobals World.boardDown sampleConfig
        ⟨"reopened", lockedIssue⟩).globals.postProcessing = some sampleGlobals.doneColumn ∧
    (handleIssuesEvent markedGlobals World.quiet sampleConfig
        ⟨"reopened", lockedIssue⟩).effects
      = [Effect.BoardPost "1234" "5" "c3", Effect.Unlock 5] := by
  decide

/-- C5, amended: an `issues_reopened` event on a locked issue makes exactly one
board move, to the done column, and no label call (the progress-label update
is disabled in the source); when the move succeeds it makes exactly one unlock
call and afterwards the issue has no marker; when the move fails it makes no
unlock call and leaves the package-level variables unchanged. -/
theorem reopened_locked (g : Globals) (w : World) (config : RepoConfig) (event : IssuesEvent)
    (hact : event.Action = "reopened") (hlock : event.Issue.Locked = true) :
    (handleIssuesEvent g w config event).effects.filter Effect.isBoardMove
      = [Effect.BoardPost config.Board.GithubRepo (Itoa event.Issue.Number) g.doneColumn.id] ∧
    (handleIssuesEvent g w config event).effects.all (fun e => !e.isLabelCall) = true ∧
    ((∃ status, w.Post (Itoa event.Issue.Number) g.doneColumn.id = .ok status) →
      (handleIssuesEvent g w config event).effects.filter Effect.isUnlock
        = [Effect.Unlock event.Issue.Number] ∧
      mapGet (Itoa event.Issue.Number) (handleIssuesEvent g w config event).globals.postProcessing
        = none) ∧
    ((∃ err, w.Post (Itoa event.Issue.Number) g.doneColumn.id = .error err) →
      (handleIssuesEvent g w config event).effects.filter Effect.isUnlock = [] ∧
      (handleIssuesEvent g w config event).globals = g) := by
  have h1 : ("closed" == "reopened") = false := by decide
  have h2 : ("reopened" == "reopened") = true := by decide
  have hreg : ∀ (g1 : Globals) (effs : List Effect),
      regularProcessing g1 w config event effs = ⟨Outcome.nil, g1, effs⟩ := by
    intro g1 effs
    simp [regularProcessing, hlock]
  have hdel : ∀ g1 : Globals,
      (match mapGet (Itoa event.Issue.Number) g.postProcessing with
        | some _ =>
          ({ g with postProcessing := mapDelete (Itoa event.Issue.Number) g.postProcessing }
            : Globals)
        | none => g) = g1 →
      mapGet (Itoa event.Issue.Number) g1.postProcessing = none := by
    intro g1 hg1
    subst hg1
    cases hm : mapGet (Itoa event.Issue.Number) g.postProcessing with
    | none => simpa using hm
    | some c => simpa using mapGet_mapDelete _ _
  unfold handleIssuesEvent
  simp only [closed_test, reopened_test, hact, hlock, h1, h2, Bool.and_self, if_true,
    Bool.false_eq_true, if_false, hreg, moveIssueOnBoard, changeProgressLabel]
  cases hp : w.Post (Itoa event.Issue.Number) g.doneColumn.id with
  | error err =>
    simp [Effect.isBoardMove, Effect.isLabelCall, Effect.isUnlock]
  | ok status =>
    simp only [List.append_nil]
    split
    · simp [Effect.isBoardMove, Effect.isLabelCall, Effect.isUnlock]
      exact hdel _ rfl
    · simp [Effect.isBoardMove, Effect.isLabelCall, Effect.isUnlock]
      exact hdel _ rfl

/-- C5 on the sample state with a marker for issue 5, in the world where every
call succeeds. -/
theorem reopened_locked_witness :
    (⟨"reopened", lockedIssue⟩ : IssuesEvent).Action = "reopened" ∧
    (⟨"reopened", lockedIssue⟩ : IssuesEvent).Issue.Locked = true ∧
    (handleIssuesEvent markedGlobals World.quiet sampleConfig
        ⟨"reopened", lockedIssue⟩).effects.filter Effect.isBoardMove
      = [Effect.BoardPost "1234" "5" "c3"] ∧
    mapGet "5" (handleIssuesEvent markedGlobals World.quiet sampleConfig
        ⟨"reopened", lockedIssue⟩).globals.postProcessing = none :=
  ⟨rfl, rfl,
    (reopened_locked markedGlobals World.quiet sampleConfig ⟨"reopened", lockedIssue⟩ rfl rfl).1,
    ((reopened_locked markedGlobals World.quiet sampleConfig ⟨"reopened", lockedIssue⟩ rfl
      rfl).2.2.1 ⟨200, rfl⟩).2⟩

/-- C6: on a mapped pull-request event that references the issues 1 and 2,
neither of them marked, with every call succeeding, only issue 1 is moved: the
handler returns right after the first move, although that move did not fail. -/
theorem pullRequest_stops_after_first_move :
    referencedIssues [⟨"fixes #1"⟩, ⟨"fixes #2"⟩] "" = ["1", "2"] ∧
    mapGet "pull_request_closed" sampleGlobals.stateMapping = some sampleGlobals.doneColumn ∧
    sampleGlobals.postProcessing = [] ∧
    (handlePullRequestEvent sampleGlobals World.twoCommits sampleConfig
        ⟨"closed", ⟨9, ""⟩⟩).effects
      = [Effect.ListCommits 9, Effect.BoardPost "1234" "1" "c3", Effect.IssuesGet 1] ∧
    (handlePullRequestEvent sampleGlobals World.twoCommits sampleConfig
        ⟨"closed", ⟨9, ""⟩⟩).ret = Outcome.nil := by
  decide

theorem moveIssueOnBoard_effects (w : World) (config : RepoConfig) (issue : String)
    (col : column) :
    (moveIssueOnBoard w config issue col).2
      = [Effect.BoardPost config.Board.GithubRepo issue col.id] := by
  unfold moveIssueOnBoard
  split <;> rfl

theorem processIssues_moves (w : World) (config : RepoConfig) (eventKey : String)
    (issues : List String) (g : Globals) (effs : List Effect) :
    ((processIssues w config eventKey g issues effs).effects.filter Effect.isBoardMove).length
      ≤ (effs.filter Effect.isBoardMove).length + 1 := by
  induction issues generalizing g with
  | nil => exact Nat.le_succ _
  | cons number rest ih =>
    unfold processIssues
    split
    · exact ih g
    · split
      · exact ih _
      · split
        · rename_i col _
          have he := moveIssueOnBoard_effects w config number col
          cases hmv : moveIssueOnBoard w config number col with
          | mk err e1 =>
            rw [hmv] at he
            simp only at he
            subst he
            cases err <;> cases w.IssuesGet (Atoi number) <;>
              simp [Effect.isBoardMove, changeProgressLabel]
        · exact ih g

/-- Every pull-request event makes at most one board move, however many issues
it references. -/
theorem handlePullRequestEvent_moves (g : Globals) (w : World) (config : RepoConfig)
    (event : PullRequestEvent) :
    ((handlePullRequestEvent g w config event).effects.filter Effect.isBoardMove).length ≤ 1 := by
  unfold handlePullRequestEvent
  simp only
  split
  · simp [Effect.isBoardMove]
  · exact processIssues_moves _ _ _ _ _ _

theorem HandleEvent_static_of_nonempty (g : Globals) (w : World) (config : RepoConfig)
    (eventObject : EventObject) (h : g.stateMapping ≠ []) :
    (HandleEvent g w config eventObject).globals.static = g.static := by
  by_cases hrepo : config.Board.GithubRepo = "<repo>"
  · simp [HandleEvent, hrepo]
  · rw [HandleEvent_static g w config eventObject hrepo]
    have h1 : (g.stateMapping.length == 0) = false := by
      cases hm : g.stateMapping with
      | nil => exact absurd hm h
      | cons x xs => rfl
    simp [initialise, h1]

theorem runCalls_static (calls : List (World × RepoConfig × EventObject)) (g : Globals)
    (h : g.stateMapping ≠ []) : (runCalls g calls).static = g.static := by
  induction calls generalizing g with
  | nil => rfl
  | cons c rest ih =>
    obtain ⟨w, config, e⟩ := c
    have h1 := HandleEvent_static_of_nonempty g w config e h
    have h2 : (HandleEvent g w config e).globals.stateMapping ≠ [] := by
      have h3 := congrArg Prod.fst h1
      simp only [Globals.static] at h3
      rw [h3]
      exact h
    rw [runCalls, ih _ h2, h1]

/-- C7, as stated, fails: while the configured columns list no event, the
mapping table stays empty and every call initialises again; a second call with
another configuration replaces the done column and the inbox column. -/
theorem reinitialised_while_empty :
    configA.Board.GithubRepo ≠ "<repo>" ∧ configB.Board.GithubRepo ≠ "<repo>" ∧
    (runCalls Globals.initial [(World.quiet, configA, EventObject.other)]).static
      = ([], ⟨"Done", "a", true, true⟩, ⟨"Done", "a", true, true⟩) ∧
    (runCalls Globals.initial
        [(World.quiet, configA, EventObject.other), (World.quiet, configB, EventObject.other)]).static
      = ([], ⟨"Closed", "b", true, true⟩, ⟨"Closed", "b", true, true⟩) := by
  decide

theorem foldl_events_stateMapping (c : column) (events : List String) (g : Globals) :
    (events.foldl (fun acc event => { acc with stateMapping := mapSet event c acc.stateMapping })
        g).stateMapping
      = events.foldl (fun m event => mapSet event c m) g.stateMapping := by
  induction events generalizing g with
  | nil => rfl
  | cons e es ih => simp only [List.foldl_cons]; rw [ih]

theorem initColumn_stateMapping (g : Globals) (col : ConfigColumn) :
    (initColumn g col).stateMapping
      = col.Events.foldl (fun m event => mapSet event (columnOf col) m) g.stateMapping := by
  unfold initColumn
  simp only [foldl_events_stateMapping]
  by_cases h1 : col.PostMergePipeline <;> by_cases h2 : col.IsInbox <;> simp [columnOf, h1, h2]

theorem foldl_initColumn_stateMapping (cols : List ConfigColumn) (g g1 : Globals)
    (h : g.stateMapping = g1.stateMapping) :
    (cols.foldl initColumn g).stateMapping = (cols.foldl initColumn g1).stateMapping := by
  induction cols generalizing g g1 with
  | nil => exact h
  | cons col rest ih =>
    simp only [List.foldl_cons]
    apply ih
    rw [initColumn_stateMapping, initColumn_stateMapping, h]

theorem initialise_static_congr (g g1 : Globals) (config : RepoConfig)
    (h : g.static = g1.static) : (initialise g config).static = (initialise g1 config).static := by
  simp only [Globals.static, Prod.mk.injEq] at h
  obtain ⟨hm, hd, hi⟩ := h
  unfold initialise
  rw [hm]
  split
  · simp only [Globals.static, foldl_initColumn_doneColumn, foldl_initColumn_inboxColumn, hd, hi,
      foldl_initColumn_stateMapping _ g g1 hm]
  · simp only [Globals.static, hm, hd, hi]

theorem initialise_of_empty (s : Globals) (config : RepoConfig)
    (h : (s.stateMapping.length == 0) = true) :
    initialise s config = config.Board.Columns.foldl initColumn s := by
  simp only [initialise, h, if_true]

theorem initialise_of_nonempty (s : Globals) (config : RepoConfig)
    (h : ¬ (s.stateMapping.length == 0) = true) : initialise s config = s := by
  unfold initialise
  rw [if_neg h]

theorem initialise_idempotent (g : Globals) (config : RepoConfig) :
    (initialise (initialise g config) config).static = (initialise g config).static := by
  by_cases hg : (g.stateMapping.length == 0) = true
  · have h1 : initialise g config = config.Board.Columns.foldl initColumn g :=
      initialise_of_empty g config hg
    have hnil : g.stateMapping = [] := by
      simpa using hg
    by_cases hs : ((initialise g config).stateMapping.length == 0) = true
    · have hsnil : (initialise g config).stateMapping = [] := by
        simpa using hs
      have h2 : initialise (initialise g config) config
          = config.Board.Columns.foldl initColumn (initialise g config) :=
        initialise_of_empty _ config hs
      have hmap : (config.Board.Columns.foldl initColumn (initialise g config)).stateMapping
          = (initialise g config).stateMapping := by
        rw [foldl_initColumn_stateMapping _ (initialise g config) g (by rw [hsnil, hnil]), ← h1]
      have hdone : (config.Board.Columns.foldl initColumn (initialise g config)).doneColumn
          = (initialise g config).doneColumn := by
        rw [foldl_initColumn_doneColumn, h1, foldl_initColumn_doneColumn]
        cases lastFlagged (fun col => col.PostMergePipeline) config.Board.Columns <;> rfl
      have hinbox : (config.Board.Columns.foldl initColumn (initialise g config)).inboxColumn
          = (initialise g config).inboxColumn := by
        rw [foldl_initColumn_inboxColumn, h1, foldl_initColumn_inboxColumn]
        cases lastFlagged (fun col => col.IsInbox) config.Board.Columns <;> rfl
      rw [h2]
      simp only [Globals.static, hmap, hdone, hinbox]
    · rw [initialise_of_nonempty _ config hs]
  · have h1 : initialise g config = g := initialise_of_nonempty g config hg
    rw [h1, h1]

theorem runCalls_same_config (config : RepoConfig)
    (rest : List (World × RepoConfig × EventObject)) (s : Globals)
    (hsame : ∀ c ∈ rest, c.2.1 = config)
    (hinv : config.Board.GithubRepo = "<repo>" ∨ (initialise s config).static = s.static) :
    (runCalls s rest).static = s.static := by
  induction rest generalizing s with
  | nil => rfl
  | cons c rest ih =>
    obtain ⟨w, config1, e⟩ := c
    have hc : config1 = config := hsame (w, config1, e) (List.mem_cons_self _ _)
    subst hc
    have hrest : ∀ c ∈ rest, c.2.1 = config1 := fun c hc => hsame c (List.mem_cons_of_mem _ hc)
    unfold runCalls
    by_cases hrepo : config1.Board.GithubRepo = "<repo>"
    · have h1 : (HandleEvent s w config1 e).globals = s := by
        simp [HandleEvent, hrepo]
      rw [h1]
      exact ih s hrest (Or.inl hrepo)
    · have hinv1 : (initialise s config1).static = s.static := by
        rcases hinv with h | h
        · exact absurd h hrepo
        · exact h
      have h1 : (HandleEvent s w config1 e).globals.static = s.static := by
        rw [HandleEvent_static s w config1 e hrepo, hinv1]
      rw [ih _ hrest (Or.inr (by
        rw [initialise_static_congr _ s config1 h1, hinv1, h1])), h1]

/-- C7, amended: the initialisation of `HandleEvent` is idempotent; in every
sequence of calls that all use the same configuration (any column lists, also
columns without events), or whose first call left the mapping table non-empty,
every call after the first leaves the mapping table, the done column and the
inbox column as the first call left them. -/
theorem initialised_once (g : Globals) (w : World) (config : RepoConfig) (e : EventObject)
    (rest : List (World × RepoConfig × EventObject))
    (h : (∀ c ∈ rest, c.2.1 = config) ∨
      (HandleEvent g w config e).globals.stateMapping ≠ []) :
    (runCalls g ((w, config, e) :: rest)).static = (HandleEvent g w config e).globals.static := by
  rcases h with h | h
  · unfold runCalls
    apply runCalls_same_config config rest _ h
    by_cases hrepo : config.Board.GithubRepo = "<repo>"
    · exact Or.inl hrepo
    · right
      have h1 := HandleEvent_static g w config e hrepo
      rw [initialise_static_congr _ (initialise g config) config h1, initialise_idempotent, h1]
  · exact runCalls_static rest _ h

/-- C7 on the configuration whose only column lists no event: the mapping
table stays empty, every call initialises again, and the three variables stay
as the first call left them; and on the sample configuration, where a later
call with another configuration changes nothing. -/
theorem initialised_once_witness :
    (∀ c ∈ [(World.quiet, configA, EventObject.other), (World.boardDown, configA,
        EventObject.issues ⟨"opened", sampleIssue⟩)], c.2.1 = configA) ∧
    (HandleEvent Globals.initial World.quiet configA EventObject.other).globals.stateMapping
      = [] ∧
    (HandleEvent Globals.initial World.quiet sampleConfig EventObject.other).globals.stateMapping
      ≠ [] ∧
    (runCalls Globals.initial
        [(World.quiet, configA, EventObject.other), (World.quiet, configA, EventObject.other),
         (World.boardDown, configA, EventObject.issues ⟨"opened", sampleIssue⟩)]).static
      = (HandleEvent Globals.initial World.quiet configA EventObject.other).globals.static ∧
    (runCalls Globals.initial
        [(World.quiet, sampleConfig, EventObject.other),
         (World.quiet, configB, EventObject.other)]).static
      = (HandleEvent Globals.initial World.quiet sampleConfig EventObject.other).globals.static :=
  ⟨by decide, by decide, by decide,
    initialised_once Globals.initial World.quiet configA EventObject.other
      [(World.quiet, configA, EventObject.other),
       (World.boardDown, configA, EventObject.issues ⟨"opened", sampleIssue⟩)]
      (Or.inl (by decide)),
    initialised_once Globals.initial World.quiet sampleConfig EventObject.other
      [(World.quiet, configB, EventObject.other)] (Or.inr (by decide))⟩

/-- C8: an `issues_closed` event whose label listing succeeds and holds a label
named `ignore/qe` makes no board move and no label call, does not start the
deferred task, leaves the package-level variables (the marker set among them)
unchanged and returns nil, whatever the markers and the lock state. -/
theorem closed_with_ignore_label (g : Globals) (w : World) (config : RepoConfig)
    (event : IssuesEvent) (labels : List Label) (hact : event.Action = "closed")
    (hlist : w.ListLabelsByIssue event.Issue.Number = .ok labels)
    (hign : ∃ l ∈ labels, l.Name = "ignore/qe") :
    (handleIssuesEvent g w config event).effects.all
        (fun e => !e.isBoardMove && !e.isLabelCall && !e.isDeferredTask) = true ∧
    (handleIssuesEvent g w config event).globals = g ∧
    (handleIssuesEvent g w config event).ret = Outcome.nil := by
  have hc : labelsContainsLabel labels "ignore/qe" = true := by
    obtain ⟨l, hl, hn⟩ := hign
    simp only [labelsContainsLabel, List.any_eq_true, beq_iff_eq]
    exact ⟨l, hl, hn⟩
  unfold handleIssuesEvent
  simp only [closed_test, hact, hlist, hc]
  simp [Effect.isBoardMove, Effect.isLabelCall, Effect.isDeferredTask]

/-- C8 in the world whose label listing holds `ignore/qe`, on the sample state
with a marker for the issue. -/
theorem closed_with_ignore_label_witness :
    (⟨"closed", lockedIssue⟩ : IssuesEvent).Action = "closed" ∧
    World.ignoring.ListLabelsByIssue 5 = .ok [⟨"bug"⟩, ⟨"ignore/qe"⟩] ∧
    (handleIssuesEvent markedGlobals World.ignoring sampleConfig
        ⟨"closed", lockedIssue⟩).effects.all
        (fun e => !e.isBoardMove && !e.isLabelCall && !e.isDeferredTask) = true ∧
    (handleIssuesEvent markedGlobals World.ignoring sampleConfig
        ⟨"closed", lockedIssue⟩).globals = markedGlobals ∧
    (handleIssuesEvent markedGlobals World.ignoring sampleConfig
        ⟨"closed", lockedIssue⟩).ret = Outcome.nil :=
  ⟨rfl, rfl,
    closed_with_ignore_label markedGlobals World.ignoring sampleConfig ⟨"closed", lockedIssue⟩
      [⟨"bug"⟩, ⟨"ignore/qe"⟩] rfl rfl ⟨⟨"ignore/qe"⟩, by decide, rfl⟩⟩

/-- C9: an `issues_closed` event whose label listing succeeds without an
`ignore/qe` label, on an issue that has a marker, starts the deferred task
exactly once, makes no board move and no label call, returns nil and leaves
the package-level variables unchanged: the marker stays in the marker set. -/
theorem closed_with_marker (g : Globals) (w : World) (config : RepoConfig)
    (event : IssuesEvent) (labels : List Label) (col : column)
    (hact : event.Action = "closed")
    (hlist : w.ListLabelsByIssue event.Issue.Number = .ok labels)
    (hign : ∀ l ∈ labels, l.Name ≠ "ignore/qe")
    (hmark : mapGet (Itoa event.Issue.Number) g.postProcessing = some col) :
    ((handleIssuesEvent g w config event).effects.filter Effect.isDeferredTask).length = 1 ∧
    (handleIssuesEvent g w config event).effects.all
        (fun e => !e.isBoardMove && !e.isLabelCall) = true ∧
    (handleIssuesEvent g w config event).ret = Outcome.nil ∧
    (handleIssuesEvent g w config event).globals = g ∧
    mapGet (Itoa event.Issue.Number) (handleIssuesEvent g w config event).globals.postProcessing
      = some col := by
  have hc : labelsContainsLabel labels "ignore/qe" = false := by
    cases hl : labelsContainsLabel labels "ignore/qe" with
    | false => rfl
    | true =>
      simp only [labelsContainsLabel, List.any_eq_true, beq_iff_eq] at hl
      obtain ⟨l, hl1, hl2⟩ := hl
      exact absurd hl2 (hign l hl1)
  unfold handleIssuesEvent
  simp only [closed_test, hact, hlist, hc, hmark]
  simp [Effect.isBoardMove, Effect.isLabelCall, Effect.isDeferredTask, hmark]

/-- C9 on the sample state with a marker for issue 5. -/
theorem closed_with_marker_witness :
    (⟨"closed", sampleIssue⟩ : IssuesEvent).Action = "closed" ∧
    World.quiet.ListLabelsByIssue 5 = .ok [] ∧
    mapGet (Itoa 5) markedGlobals.postProcessing = some sampleGlobals.doneColumn ∧
    (handleIssuesEvent markedGlobals World.quiet sampleConfig ⟨"closed", sampleIssue⟩).effects
      = [Effect.ListLabelsByIssue 5, Effect.goPostProcess 5] ∧
    ((handleIssuesEvent markedGlobals World.quiet sampleConfig
        ⟨"closed", sampleIssue⟩).effects.filter Effect.isDeferredTask).length = 1 :=
  ⟨rfl, rfl, by decide, by decide,
    (closed_with_marker markedGlobals World.quiet sampleConfig ⟨"closed", sampleIssue⟩ []
      sampleGlobals.doneColumn rfl rfl (by simp) (by decide)).1⟩

/-- C10: an `issues_milestoned` event for which the board answers with a
column name other than the name of the inbox column makes no board move and
returns nil, whether or not `issues_milestoned` is in the mapping table. -/
theorem milestoned_outside_inbox (g : Globals) (w : World) (config : RepoConfig)
    (event : IssuesEvent) (status : Nat) (name : String)
    (hact : event.Action = "milestoned")
    (hget : w.Get (Itoa event.Issue.Number) = .ok (status, .ok name))
    (hname : name ≠ g.inboxColumn.name) :
    (handleIssuesEvent g w config event).effects.all (fun e => !e.isBoardMove) = true ∧
    (handleIssuesEvent g w config event).ret = Outcome.nil := by
  have h1 : (name != g.inboxColumn.name) = true := by simpa using hname
  unfold handleIssuesEvent
  simp only [closed_test, reopened_test, opened_test, milestoned_test, hact, getIssueColumn, hget]
  simp [Effect.isBoardMove, h1]

/-- C10 on the sample state, where `issues_milestoned` is mapped, in the world
where the board reports `Review`. -/
theorem milestoned_outside_inbox_witness :
    (⟨"milestoned", sampleIssue⟩ : IssuesEvent).Action = "milestoned" ∧
    World.inReview.Get (Itoa 5) = .ok (200, .ok "Review") ∧
    "Review" ≠ sampleGlobals.inboxColumn.name ∧
    (mapGet "issues_milestoned" sampleGlobals.stateMapping).isSome = true ∧
    (handleIssuesEvent sampleGlobals World.inReview sampleConfig
        ⟨"milestoned", sampleIssue⟩).effects.all (fun e => !e.isBoardMove) = true ∧
    (handleIssuesEvent sampleGlobals World.inReview sampleConfig
        ⟨"milestoned", sampleIssue⟩).ret = Outcome.nil :=
  ⟨rfl, rfl, by decide, by decide,
    milestoned_outside_inbox sampleGlobals World.inReview sampleConfig
      ⟨"milestoned", sampleIssue⟩ 200 "Review" rfl rfl (by decide)⟩

/-! ## The locked-issue guard and the markers -/

/-- C11: an issue event whose key is neither `issues_closed` nor
`issues_reopened`, on a locked issue, makes no board move, no label call and no
lock or unlock call, starts no deferred task, leaves the package-level
variables (the marker set among them) unchanged and returns nil, whether or
not its key is in the mapping table. -/
theorem locked_issue_guard (g : Globals) (w : World) (config : RepoConfig)
    (event : IssuesEvent) (hclosed : event.Action ≠ "closed")
    (hreopened : event.Action ≠ "reopened") (hlock : event.Issue.Locked = true) :
    (handleIssuesEvent g w config event).effects.all
        (fun e => !e.isBoardMove && !e.isLabelCall && !e.isLockCall && !e.isDeferredTask)
      = true ∧
    (handleIssuesEvent g w config event).globals = g ∧
    (handleIssuesEvent g w config event).ret = Outcome.nil := by
  have h1 : ("closed" == event.Action) = false := by
    simpa using fun h2 : "closed" = event.Action => hclosed h2.symm
  have h2 : ("reopened" == event.Action) = false := by
    simpa using fun h2 : "reopened" = event.Action => hreopened h2.symm
  have hreg : ∀ effs : List Effect,
      regularProcessing g w config event effs = ⟨Outcome.nil, g, effs⟩ := by
    intro effs
    simp [regularProcessing, hlock]
  unfold handleIssuesEvent
  simp only [closed_test, reopened_test, opened_test, milestoned_test, demilestoned_test,
    h1, h2, hreg, Bool.false_and, Bool.false_eq_true, if_false]
  repeat' split
  all_goals simp [Effect.isBoardMove, Effect.isLabelCall, Effect.isLockCall,
    Effect.isDeferredTask, getIssueColumn_effects]

/-- C11 on the sample state, where `issues_milestoned` is mapped: the locked
issue 5 is not moved although the board reports the inbox column. -/
theorem locked_issue_guard_witness :
    (⟨"milestoned", lockedIssue⟩ : IssuesEvent).Action ≠ "closed" ∧
    (⟨"milestoned", lockedIssue⟩ : IssuesEvent).Action ≠ "reopened" ∧
    (⟨"milestoned", lockedIssue⟩ : IssuesEvent).Issue.Locked = true ∧
    (mapGet "issues_milestoned" sampleGlobals.stateMapping).isSome = true ∧
    (handleIssuesEvent sampleGlobals World.quiet sampleConfig
        ⟨"milestoned", lockedIssue⟩).effects.all
        (fun e => !e.isBoardMove && !e.isLabelCall && !e.isLockCall && !e.isDeferredTask)
      = true ∧
    (handleIssuesEvent sampleGlobals World.quiet sampleConfig
        ⟨"milestoned", lockedIssue⟩).globals = sampleGlobals ∧
    (handleIssuesEvent sampleGlobals World.quiet sampleConfig
        ⟨"milestoned", lockedIssue⟩).ret = Outcome.nil :=
  ⟨by decide, by decide, rfl, by decide,
    locked_issue_guard sampleGlobals World.quiet sampleConfig ⟨"milestoned", lockedIssue⟩
      (by decide) (by decide) rfl⟩

theorem mapGet_filter_ne {α : Type} (k k1 : String) (m : List (String × α)) (h : k1 ≠ k) :
    mapGet k1 (m.filter (fun e => e.1 != k)) = mapGet k1 m := by
  induction m with
  | nil => rfl
  | cons e rest ih =>
    obtain ⟨k2, v⟩ := e
    by_cases h2 : k2 = k
    · have h3 : ¬ k = k1 := fun h4 => h h4.symm
      subst h2
      simpa [List.filter, mapGet, h3] using ih
    · have h3 : (k2 != k) = true := by simpa using h2
      simp only [List.filter, h3, mapGet, ih]

theorem mapGet_mapSet_self {α : Type} (k : String) (v : α) (m : List (String × α)) :
    mapGet k (mapSet k v m) = some v := by
  simp [mapSet, mapGet]

theorem mapGet_mapSet_ne {α : Type} (k k1 : String) (v : α) (m : List (String × α))
    (h : k1 ≠ k) : mapGet k1 (mapSet k v m) = mapGet k1 m := by
  have h3 : (k == k1) = false := by simpa using fun h4 : k = k1 => h h4.symm
  simp only [mapSet, mapGet, h3]
  exact mapGet_filter_ne k k1 m h

theorem processIssues_marker_kept (w : World) (config : RepoConfig) (eventKey : String)
    (n : String) (c : column) (issues : List String) (g : Globals) (effs : List Effect)
    (h : mapGet n g.postProcessing = some c) :
    mapGet n (processIssues w config eventKey g issues effs).globals.postProcessing = some c ∧
    ∀ repo pid, Effect.BoardPost repo n pid ∈ (processIssues w config eventKey g issues effs).effects →
      Effect.BoardPost repo n pid ∈ effs := by
  induction issues generalizing g with
  | nil => exact ⟨h, fun _ _ hm => hm⟩
  | cons number rest ih =>
    unfold processIssues
    cases hm : mapGet number g.postProcessing with
    | some c1 => exact ih g h
    | none =>
      have hne : n ≠ number := by
        intro heq
        rw [heq, hm] at h
        cases h
      simp only
      split
      · exact ih _ (by simpa [mapGet_mapSet_ne number n _ _ hne] using h)
      · cases hk : mapGet eventKey g.stateMapping with
        | none => exact ih g h
        | some col =>
          have he := moveIssueOnBoard_effects w config number col
          cases hmv : moveIssueOnBoard w config number col with
          | mk err e1 =>
            rw [hmv] at he
            simp only at he
            subst he
            have hne2 : number ≠ n := fun h2 => hne h2.symm
            cases err <;> cases w.IssuesGet (Atoi number) <;>
              simp [hmv, h, changeProgressLabel, hne]

theorem processIssues_opened (w : World) (config : RepoConfig) (issues : List String)
    (g : Globals) (effs : List Effect) (hdone : g.doneColumn.isPostMergePipeline = true) :
    (processIssues w config ("pull_request" ++ "_" ++ "opened") g issues effs).ret = Outcome.nil ∧
    (processIssues w config ("pull_request" ++ "_" ++ "opened") g issues effs).effects = effs ∧
    ∀ n, n ∈ issues → mapGet n g.postProcessing = none →
      mapGet n (processIssues w config ("pull_request" ++ "_" ++ "opened") g issues
        effs).globals.postProcessing = some g.doneColumn := by
  have hk : ("pull_request_opened" == "pull_request" ++ "_" ++ "opened") = true := by decide
  induction issues generalizing g with
  | nil =>
    refine ⟨rfl, rfl, ?_⟩
    intro n hn
    cases hn
  | cons number rest ih =>
    unfold processIssues
    cases hm : mapGet number g.postProcessing with
    | some c1 =>
      obtain ⟨i1, i2, i3⟩ := ih g hdone
      refine ⟨i1, i2, ?_⟩
      intro n hn hnone
      rcases List.mem_cons.1 hn with rfl | hn
      · rw [hm] at hnone
        cases hnone
      · exact i3 n hn hnone
    | none =>
      simp only [hk, hdone, Bool.and_self, if_true]
      obtain ⟨i1, i2, i3⟩ :=
        ih { g with postProcessing := mapSet number g.doneColumn g.postProcessing } hdone
      refine ⟨i1, i2, ?_⟩
      intro n hn hnone
      by_cases hnn : n = number
      · subst hnn
        exact (processIssues_marker_kept w config _ n g.doneColumn rest _ effs
          (mapGet_mapSet_self _ _ _)).1
      · rcases List.mem_cons.1 hn with h1 | h1
        · exact absurd h1 hnn
        · exact i3 n h1 (by simpa [mapGet_mapSet_ne number n _ _ hnn] using hnone)

theorem processIssues_markers_unchanged (w : World) (config : RepoConfig) (eventKey : String)
    (issues : List String) (g : Globals) (effs : List Effect)
    (h : ("pull_request_opened" == eventKey && g.doneColumn.isPostMergePipeline) = false) :
    (processIssues w config eventKey g issues effs).globals = g := by
  induction issues with
  | nil => rfl
  | cons number rest ih =>
    unfold processIssues
    simp only [h, Bool.false_eq_true, if_false]
    repeat' split
    all_goals first | exact ih | rfl

/-- C12, as stated, fails: after issue 7 got its marker, a second
`pull_request_opened` event that references the issues 7 and 8 adds a marker
for issue 8, so the marker set changes. -/
theorem later_opened_event_adds_marker :
    mapGet "7" sampleGlobals.postProcessing = none ∧
    sampleGlobals.doneColumn.isPostMergePipeline = true ∧
    (handlePullRequestEvent sampleGlobals World.quiet sampleConfig
        openedSeven).globals.postProcessing = [("7", sampleGlobals.doneColumn)] ∧
    referencedIssues [] openedSevenEight.PullRequest.Body = ["7", "8"] ∧
    (handlePullRequestEvent
        (handlePullRequestEvent sampleGlobals World.quiet sampleConfig openedSeven).globals
        World.quiet sampleConfig openedSevenEight).globals.postProcessing
      = [("8", sampleGlobals.doneColumn), ("7", sampleGlobals.doneColumn)] := by
  decide

/-- C12, amended: for an issue number `n` without marker, a
`pull_request_opened` event that references `n`, handled while the done column
is flagged post-merge-pipeline, adds the marker `n -> done column` and makes no
board move; any following pull-request event then makes no board move for `n`
and leaves the marker of `n` as it is, and leaves the whole marker set
unchanged unless its action is `opened` again (when it adds markers for the
unmarked issues it references). -/
theorem marker_round_trip (g : Globals) (w1 w2 : World) (config1 config2 : RepoConfig)
    (e1 e2 : PullRequestEvent) (commits : List Commit) (n : String)
    (hopened : e1.Action = "opened") (hdone : g.doneColumn.isPostMergePipeline = true)
    (hcommits : w1.ListCommits e1.PullRequest.Number = .ok commits)
    (href : n ∈ referencedIssues commits e1.PullRequest.Body)
    (hnomark : mapGet n g.postProcessing = none) :
    mapGet n (handlePullRequestEvent g w1 config1 e1).globals.postProcessing
      = some g.doneColumn ∧
    (handlePullRequestEvent g w1 config1 e1).effects.all (fun e => !e.isBoardMove) = true ∧
    (∀ repo pid, Effect.BoardPost repo n pid ∉
      (handlePullRequestEvent (handlePullRequestEvent g w1 config1 e1).globals w2 config2
        e2).effects) ∧
    mapGet n (handlePullRequestEvent (handlePullRequestEvent g w1 config1 e1).globals w2 config2
        e2).globals.postProcessing = some g.doneColumn ∧
    (e2.Action ≠ "opened" →
      (handlePullRequestEvent (handlePullRequestEvent g w1 config1 e1).globals w2 config2
        e2).globals.postProcessing
        = (handlePullRequestEvent g w1 config1 e1).globals.postProcessing) := by
  have h1 : handlePullRequestEvent g w1 config1 e1
      = processIssues w1 config1 ("pull_request" ++ "_" ++ "opened") g
          (referencedIssues commits e1.PullRequest.Body)
          [Effect.ListCommits e1.PullRequest.Number] := by
    unfold handlePullRequestEvent
    simp only [hcommits, hopened]
  obtain ⟨_, p2, p3⟩ := processIssues_opened w1 config1
    (referencedIssues commits e1.PullRequest.Body) g
    [Effect.ListCommits e1.PullRequest.Number] hdone
  have hmark := p3 n href hnomark
  rw [← h1] at p2 hmark
  refine ⟨hmark, ?_, ?_, ?_, ?_⟩
  · rw [p2]
    rfl
  · intro repo pid hmem
    unfold handlePullRequestEvent at hmem
    simp only at hmem
    split at hmem
    · simp at hmem
    · have := (processIssues_marker_kept w2 config2 _ n g.doneColumn _ _ _ hmark).2 repo pid hmem
      simp at this
  · unfold handlePullRequestEvent
    simp only
    split
    · exact hmark
    · exact (processIssues_marker_kept w2 config2 _ n g.doneColumn _ _ _ hmark).1
  · intro hne
    have hk : ("pull_request_opened" == "pull_request" ++ "_" ++ e2.Action) = false := by
      have := key_beq "pull_request" "opened" e2.Action
      have h3 : ("opened" == e2.Action) = false := by
        simpa using fun h4 : "opened" = e2.Action => hne h4.symm
      rw [h3] at this
      exact this
    generalize (handlePullRequestEvent g w1 config1 e1).globals = g1
    unfold handlePullRequestEvent
    simp only
    split
    · rfl
    · rw [processIssues_markers_unchanged _ _ _ _ _ _ (by rw [hk]; rfl)]

/-- C12 on the sample state: the event `opened` of pull request 9, whose body
closes issue 7, marks issue 7; the following event `labeled` moves nothing and
leaves the marker set as it is. -/
theorem marker_round_trip_witness :
    openedSeven.Action = "opened" ∧ sampleGlobals.doneColumn.isPostMergePipeline = true ∧
    World.quiet.ListCommits openedSeven.PullRequest.Number = .ok [] ∧
    "7" ∈ referencedIssues [] openedSeven.PullRequest.Body ∧
    mapGet "7" sampleGlobals.postProcessing = none ∧
    mapGet "7" (handlePullRequestEvent sampleGlobals World.quiet sampleConfig
      openedSeven).globals.postProcessing = some sampleGlobals.doneColumn ∧
    (handlePullRequestEvent
        (handlePullRequestEvent sampleGlobals World.quiet sampleConfig openedSeven).globals
        World.quiet sampleConfig labeledSeven).globals.postProcessing
      = (handlePullRequestEvent sampleGlobals World.quiet sampleConfig
          openedSeven).globals.postProcessing :=
  ⟨rfl, by decide, rfl, by decide, by decide,
    (marker_round_trip sampleGlobals World.quiet World.quiet sampleConfig sampleConfig
      openedSeven labeledSeven [] "7" rfl (by decide) rfl (by decide) (by decide)).1,
    (marker_round_trip sampleGlobals World.quiet World.quiet sampleConfig sampleConfig
      openedSeven labeledSeven [] "7" rfl (by decide) rfl (by decide) (by decide)).2.2.2.2
      (by decide)⟩

/-! ## Bounds on the effects and the default path -/

theorem regularProcessing_effects (g : Globals) (w : World) (config : RepoConfig)
    (event : IssuesEvent) (effs : List Effect) :
    (regularProcessing g w config event effs).effects = effs ∨
    ∃ col, event.Issue.Locked = false ∧
      mapGet ("issues" ++ "_" ++ event.Action) g.stateMapping = some col ∧
      (regularProcessing g w config event effs).effects
        = effs ++ [Effect.BoardPost config.Board.GithubRepo (Itoa event.Issue.Number) col.id] := by
  unfold regularProcessing
  cases hl : event.Issue.Locked with
  | true => exact Or.inl rfl
  | false =>
    cases hm : mapGet ("issues" ++ "_" ++ event.Action) g.stateMapping with
    | none => exact Or.inl rfl
    | some col =>
      refine Or.inr ⟨col, rfl, rfl, ?_⟩
      have he := moveIssueOnBoard_effects w config (Itoa event.Issue.Number) col
      cases hmv : moveIssueOnBoard w config (Itoa event.Issue.Number) col with
      | mk err e1 =>
        rw [hmv] at he
        simp only at he
        subst he
        cases err <;> simp [hmv, changeProgressLabel]

theorem regularProcessing_moves (g : Globals) (w : World) (config : RepoConfig)
    (event : IssuesEvent) (effs : List Effect) :
    ((regularProcessing g w config event effs).effects.filter Effect.isBoardMove).length
      ≤ (effs.filter Effect.isBoardMove).length + 1 := by
  rcases regularProcessing_effects g w config event effs with h | ⟨col, _, _, h⟩
  · rw [h]
    exact Nat.le_succ _
  · rw [h]
    simp [Effect.isBoardMove]

theorem regularProcessing_others (g : Globals) (w : World) (config : RepoConfig)
    (event : IssuesEvent) (effs : List Effect) (P : Effect → Bool)
    (hP : ∀ a b c, P (Effect.BoardPost a b c) = false) :
    (regularProcessing g w config event effs).effects.filter P = effs.filter P := by
  rcases regularProcessing_effects g w config event effs with h | ⟨col, _, _, h⟩
  · rw [h]
  · rw [h]
    simp [hP]

theorem regularProcessing_locked (g : Globals) (w : World) (config : RepoConfig)
    (event : IssuesEvent) (effs : List Effect) (hlock : event.Issue.Locked = true) :
    regularProcessing g w config event effs = ⟨Outcome.nil, g, effs⟩ := by
  simp [regularProcessing, hlock]

theorem clearProgressLabel_removals (issue : Issue) :
    (clearProgressLabel issue).filter Effect.isLabelRemoval = clearProgressLabel issue ∧
    (clearProgressLabel issue).length
      = (issue.Labels.filter (fun label => HasPrefix label.Name "progress/")).length ∧
    (clearProgressLabel issue).filter Effect.isBoardMove = [] ∧
    (clearProgressLabel issue).filter Effect.isLockCall = [] ∧
    (clearProgressLabel issue).all (fun e => !e.isLabelAddition) = true := by
  unfold clearProgressLabel
  refine ⟨?_, by simp, ?_, ?_, ?_⟩
  · rw [List.filter_eq_self]
    intro e he
    obtain ⟨l, _, rfl⟩ := List.mem_map.1 he
    rfl
  · rw [List.filter_eq_nil_iff]
    intro e he
    obtain ⟨l, _, rfl⟩ := List.mem_map.1 he
    simp [Effect.isBoardMove]
  · rw [List.filter_eq_nil_iff]
    intro e he
    obtain ⟨l, _, rfl⟩ := List.mem_map.1 he
    simp [Effect.isLockCall]
  · rw [List.all_eq_true]
    intro e he
    obtain ⟨l, _, rfl⟩ := List.mem_map.1 he
    rfl

/-- C13, as stated, fails: an `issues_closed` event on an issue with two
`progress/` labels removes both of them. -/
theorem closed_removes_every_progress_label :
    (handleIssuesEvent sampleGlobals World.quiet sampleConfig ⟨"closed", twoProgressIssue⟩).effects
      = [Effect.ListLabelsByIssue 5, Effect.RemoveLabelForIssue 5 "progress/review",
          Effect.RemoveLabelForIssue 5 "progress/done"] ∧
    ((handleIssuesEvent sampleGlobals World.quiet sampleConfig
        ⟨"closed", twoProgressIssue⟩).effects.filter Effect.isLabelRemoval).length = 2 := by
  decide

/-- C13, amended: one call of `handleIssuesEvent` makes at most one board move,
at most one lock or unlock call and no label addition; it removes at most as
many labels as the issue has `progress/` labels, which may be several. -/
theorem issue_event_effects_bounded (g : Globals) (w : World) (config : RepoConfig)
    (event : IssuesEvent) :
    ((handleIssuesEvent g w config event).effects.filter Effect.isBoardMove).length ≤ 1 ∧
    ((handleIssuesEvent g w config event).effects.filter Effect.isLockCall).length ≤ 1 ∧
    (handleIssuesEvent g w config event).effects.all (fun e => !e.isLabelAddition) = true ∧
    ((handleIssuesEvent g w config event).effects.filter Effect.isLabelRemoval).length
      ≤ (event.Issue.Labels.filter (fun label => HasPrefix label.Name "progress/")).length := by
  obtain ⟨c1, c2, c3, c4, c5⟩ := clearProgressLabel_removals event.Issue
  have hadd : ∀ effs : List Effect,
      (regularProcessing g w config event effs).effects.all (fun e => !e.isLabelAddition)
        = effs.all (fun e => !e.isLabelAddition) := by
    intro effs
    rcases regularProcessing_effects g w config event effs with h | ⟨col, _, _, h⟩
    · rw [h]
    · rw [h]
      simp [Effect.isLabelAddition]
  have hmv := regularProcessing_moves g w config event
  have hlk := fun effs => regularProcessing_others g w config event effs Effect.isLockCall
    (fun _ _ _ => rfl)
  have hrm := fun effs => regularProcessing_others g w config event effs Effect.isLabelRemoval
    (fun _ _ _ => rfl)
  unfold handleIssuesEvent
  simp only
  split
  · -- issues_closed
    split
    · simp [Effect.isBoardMove, Effect.isLockCall, Effect.isLabelAddition,
        Effect.isLabelRemoval]
    · split
      · simp [Effect.isBoardMove, Effect.isLockCall, Effect.isLabelAddition,
          Effect.isLabelRemoval]
      · split
        · simp [Effect.isBoardMove, Effect.isLockCall, Effect.isLabelAddition,
            Effect.isLabelRemoval]
        · refine ⟨?_, ?_, ?_, ?_⟩
          · refine Nat.le_trans (hmv _) ?_
            simp [Effect.isBoardMove, c3]
          · rw [hlk]
            simp [Effect.isLockCall, c4]
          · rw [hadd]
            simpa [Effect.isLabelAddition] using c5
          · rw [hrm]
            simp [Effect.isLabelRemoval, c1, c2]
  · split
    · -- issues_reopened on a locked issue
      rename_i hro
      have hlock : event.Issue.Locked = true := by
        simp only [Bool.and_eq_true] at hro
        exact hro.2
      have he := moveIssueOnBoard_effects w config (Itoa event.Issue.Number) g.doneColumn
      cases hmove : moveIssueOnBoard w config (Itoa event.Issue.Number) g.doneColumn with
      | mk err e1 =>
        rw [hmove] at he
        simp only at he
        subst he
        cases err with
        | some e =>
          simp [regularProcessing_locked _ _ _ _ _ hlock, Effect.isBoardMove,
            Effect.isLockCall, Effect.isLabelAddition, Effect.isLabelRemoval]
        | none =>
          simp only [regularProcessing_locked _ _ _ _ _ hlock, changeProgressLabel]
          split <;>
            simp [Effect.isBoardMove, Effect.isLockCall, Effect.isLabelAddition,
              Effect.isLabelRemoval]
    · split
      · split
        · simp
        · refine ⟨Nat.le_trans (hmv _) (by simp), ?_, ?_, ?_⟩
          · rw [hlk]; simp
          · rw [hadd]; simp
          · rw [hrm]; simp
      · split
        · have hg := getIssueColumn_effects w config (Itoa event.Issue.Number)
          cases hgc : getIssueColumn w config (Itoa event.Issue.Number) with
          | mk res e1 =>
            rw [hgc] at hg
            simp only at hg
            subst hg
            obtain ⟨err, col⟩ := res
            simp only
            split
            · simp [Effect.isBoardMove, Effect.isLockCall, Effect.isLabelAddition,
                Effect.isLabelRemoval]
            · refine ⟨Nat.le_trans (hmv _) (by simp [Effect.isBoardMove]), ?_, ?_, ?_⟩
              · rw [hlk]; simp [Effect.isLockCall]
              · rw [hadd]; simp [Effect.isLabelAddition]
              · rw [hrm]; simp [Effect.isLabelRemoval]
        · split
          · simp
          · refine ⟨Nat.le_trans (hmv _) (by simp), ?_, ?_, ?_⟩
            · rw [hlk]; simp
            · rw [hadd]; simp
            · rw [hrm]; simp

theorem regularProcessing_default (g : Globals) (w : World) (config : RepoConfig)
    (event : IssuesEvent) (effs : List Effect) (col : column)
    (hlock : event.Issue.Locked = false)
    (hmap : mapGet ("issues" ++ "_" ++ event.Action) g.stateMapping = some col) :
    regularProcessing g w config event effs
      = match w.Post (Itoa event.Issue.Number) col.id with
        | .error err =>
          ⟨Outcome.error err, g,
            effs ++ [Effect.BoardPost config.Board.GithubRepo (Itoa event.Issue.Number) col.id]⟩
        | .ok _ =>
          ⟨Outcome.nil, g,
            effs ++ [Effect.BoardPost config.Board.GithubRepo (Itoa event.Issue.Number) col.id]
              ++ changeProgressLabel event.Issue col.name⟩ := by
  unfold regularProcessing moveIssueOnBoard
  simp only [hlock, hmap]
  cases w.Post (Itoa event.Issue.Number) col.id <;> rfl

theorem handleIssuesEvent_default (g : Globals) (w : World) (config : RepoConfig)
    (event : IssuesEvent) (hlock : event.Issue.Locked = false)
    (hclosed : event.Action = "closed" →
      ∃ labels, w.ListLabelsByIssue event.Issue.Number = .ok labels ∧
        labelsContainsLabel labels "ignore/qe" = false ∧
        mapGet (Itoa event.Issue.Number) g.postProcessing = none)
    (hopened : event.Action = "opened" →
      event.Issue.Milestone = none ∨ mapGet "issues_milestoned" g.stateMapping = none)
    (hmilestoned : event.Action = "milestoned" →
      (getIssueColumn w config (Itoa event.Issue.Number)).1.2 = g.inboxColumn.name)
    (hdemilestoned : event.Action ≠ "demilestoned") :
    ∃ prior, prior.all (fun e => !e.isBoardMove) = true ∧
      handleIssuesEvent g w config event = regularProcessing g w config event prior := by
  unfold handleIssuesEvent
  simp only [closed_test, reopened_test, opened_test, milestoned_test, demilestoned_test, hlock,
    Bool.and_false, Bool.false_eq_true, if_false]
  split
  · rename_i h
    obtain ⟨labels, h1, h2, h3⟩ := hclosed (by simpa using Eq.symm (by simpa using h))
    simp only [h1, h2, h3, Bool.false_eq_true, if_false]
    refine ⟨_, ?_, rfl⟩
    simpa [Effect.isBoardMove] using clearProgressLabel_noMove event.Issue
  · split
    · rename_i h
      simp only [Bool.and_eq_true, beq_iff_eq] at h
      rcases hopened h.1.symm with h1 | h1
      · simp [h1] at h
      · simp only [h1]
        exact ⟨[], rfl, rfl⟩
    · split
      · rename_i h
        have h1 := hmilestoned (by simpa using Eq.symm (by simpa using h))
        have hg := getIssueColumn_effects w config (Itoa event.Issue.Number)
        cases hgc : getIssueColumn w config (Itoa event.Issue.Number) with
        | mk res e1 =>
          rw [hgc] at hg h1
          simp only at hg h1
          subst hg
          obtain ⟨err, c⟩ := res
          simp only at h1
          subst h1
          simp only [bne_self_eq_false, Bool.false_eq_true, if_false]
          exact ⟨_, by simp [Effect.isBoardMove], rfl⟩
      · split
        · rename_i h
          exact absurd (by simpa using Eq.symm (by simpa using h)) hdemilestoned
        · exact ⟨[], rfl, rfl⟩

/-- C14: on the default path of `handleIssuesEvent` (unlocked issue, key mapped
to `col`, no rule returning early) the handler returns an error exactly when
the POST of the move failed, and then returns that error; an answer of the
board, whatever its status, yields nil; after a failed move no call follows,
after an answered one the progress-label update follows. -/
theorem default_path_error (g : Globals) (w : World) (config : RepoConfig)
    (event : IssuesEvent) (col : column) (hlock : event.Issue.Locked = false)
    (hmap : mapGet ("issues" ++ "_" ++ event.Action) g.stateMapping = some col)
    (hclosed : event.Action = "closed" →
      ∃ labels, w.ListLabelsByIssue event.Issue.Number = .ok labels ∧
        labelsContainsLabel labels "ignore/qe" = false ∧
        mapGet (Itoa event.Issue.Number) g.postProcessing = none)
    (hopened : event.Action = "opened" →
      event.Issue.Milestone = none ∨ mapGet "issues_milestoned" g.stateMapping = none)
    (hmilestoned : event.Action = "milestoned" →
      (getIssueColumn w config (Itoa event.Issue.Number)).1.2 = g.inboxColumn.name)
    (hdemilestoned : event.Action ≠ "demilestoned") :
    ((∃ err, (handleIssuesEvent g w config event).ret = Outcome.error err) ↔
      ∃ err, w.Post (Itoa event.Issue.Number) col.id = .error err) ∧
    (∀ status, w.Post (Itoa event.Issue.Number) col.id = .ok status →
      (handleIssuesEvent g w config event).ret = Outcome.nil ∧
      ∃ prior, prior.all (fun e => !e.isBoardMove) = true ∧
        (handleIssuesEvent g w config event).effects
          = prior ++ [Effect.BoardPost config.Board.GithubRepo (Itoa event.Issue.Number) col.id]
            ++ changeProgressLabel event.Issue col.name) ∧
    (∀ err, w.Post (Itoa event.Issue.Number) col.id = .error err →
      (handleIssuesEvent g w config event).ret = Outcome.error err ∧
      ∃ prior, prior.all (fun e => !e.isBoardMove) = true ∧
        (handleIssuesEvent g w config event).effects
          = prior ++
            [Effect.BoardPost config.Board.GithubRepo (Itoa event.Issue.Number) col.id]) := by
  obtain ⟨prior, hp, h⟩ :=
    handleIssuesEvent_default g w config event hlock hclosed hopened hmilestoned hdemilestoned
  rw [h, regularProcessing_default g w config event prior col hlock hmap]
  cases hpost : w.Post (Itoa event.Issue.Number) col.id with
  | error e =>
    refine ⟨⟨fun _ => ⟨e, rfl⟩, fun _ => ⟨e, rfl⟩⟩, ?_, ?_⟩
    · intro status hs
      cases hs
    · intro err he
      cases he
      exact ⟨rfl, prior, hp, rfl⟩
  | ok status =>
    refine ⟨⟨?_, ?_⟩, ?_, ?_⟩
    · rintro ⟨err, he⟩
      cases he
    · rintro ⟨err, he⟩
      cases he
    · intro s _
      exact ⟨rfl, prior, hp, rfl⟩
    · intro err he
      cases he

/-- C14 on the sample state for an `issues_opened` event on issue 5: a board
answer with status 500 yields nil, a failed POST yields its error. -/
theorem default_path_error_witness :
    sampleIssue.Locked = false ∧
    mapGet ("issues" ++ "_" ++ "opened") sampleGlobals.stateMapping
      = some sampleGlobals.inboxColumn ∧
    World.boardRefuses.Post (Itoa 5) sampleGlobals.inboxColumn.id = .ok 500 ∧
    World.boardDown.Post (Itoa 5) sampleGlobals.inboxColumn.id = .error "connection refused" ∧
    (handleIssuesEvent sampleGlobals World.boardRefuses sampleConfig
      ⟨"opened", sampleIssue⟩).ret = Outcome.nil ∧
    (handleIssuesEvent sampleGlobals World.boardDown sampleConfig
      ⟨"opened", sampleIssue⟩).ret = Outcome.error "connection refused" :=
  ⟨rfl, by decide, rfl, rfl,
    ((default_path_error sampleGlobals World.boardRefuses sampleConfig ⟨"opened", sampleIssue⟩
      sampleGlobals.inboxColumn rfl (by decide) (fun h => absurd h (by decide))
      (fun _ => Or.inl rfl) (fun h => absurd h (by decide)) (by decide)).2.1 500 rfl).1,
    ((default_path_error sampleGlobals World.boardDown sampleConfig ⟨"opened", sampleIssue⟩
      sampleGlobals.inboxColumn rfl (by decide) (fun h => absurd h (by decide))
      (fun _ => Or.inl rfl) (fun h => absurd h (by decide)) (by decide)).2.2
        "connection refused" rfl).1⟩

/-! ## The captured groups are numbers -/

theorem run_groupFree (r : Regex) (st st1 : MState) (hr : r.groupFree = true)
    (h : st1 ∈ r.run st) : st1.2 = st.2 := by
  induction r generalizing st st1 with
  | empty =>
    simp only [Regex.run, List.mem_singleton] at h
    rw [h]
  | cls p =>
    obtain ⟨s, caps⟩ := st
    cases s with
    | nil => simp [Regex.run] at h
    | cons c cs =>
      simp only [Regex.run] at h
      split at h
      · simp only [List.mem_singleton] at h
        rw [h]
      · simp at h
  | cat a b iha ihb =>
    simp only [Regex.groupFree, Bool.and_eq_true] at hr
    simp only [Regex.run, List.mem_flatMap] at h
    obtain ⟨st2, h1, h2⟩ := h
    rw [ihb _ _ hr.2 h2, iha _ _ hr.1 h1]
  | alt a b iha ihb =>
    simp only [Regex.groupFree, Bool.and_eq_true] at hr
    simp only [Regex.run, List.mem_append] at h
    rcases h with h | h
    · exact iha _ _ hr.1 h
    · exact ihb _ _ hr.2 h
  | star p =>
    obtain ⟨s, caps⟩ := st
    simp only [Regex.run, List.mem_map] at h
    obtain ⟨s1, _, rfl⟩ := h
    rfl
  | group r _ => simp [Regex.groupFree] at hr

theorem starRun_split (p : Char → Bool) (s s1 : List Char) (h : s1 ∈ starRun p s) :
    ∃ d, s = d ++ s1 ∧ ∀ x ∈ d, p x = true := by
  induction s with
  | nil =>
    simp only [starRun, List.mem_singleton] at h
    exact ⟨[], by rw [h]; rfl, by simp⟩
  | cons c cs ih =>
    unfold starRun at h
    split at h
    · rename_i hc
      rcases List.mem_append.1 h with h1 | h1
      · obtain ⟨d, hd, hp⟩ := ih h1
        refine ⟨c :: d, by rw [hd]; rfl, ?_⟩
        intro x hx
        rcases List.mem_cons.1 hx with rfl | hx
        · exact hc
        · exact hp x hx
      · simp only [List.mem_singleton] at h1
        exact ⟨[], by rw [h1]; rfl, by simp⟩
    · simp only [List.mem_singleton] at h
      exact ⟨[], by rw [h]; rfl, by simp⟩

theorem run_plus_split (p : Char → Bool) (s : List Char) (caps : List (List Char))
    (st1 : MState) (h : st1 ∈ (plus p).run (s, caps)) :
    ∃ d, d ≠ [] ∧ s = d ++ st1.1 ∧ (∀ x ∈ d, p x = true) ∧ st1.2 = caps := by
  rw [plus, run_cat, List.mem_flatMap] at h
  obtain ⟨st2, h1, h2⟩ := h
  cases s with
  | nil => simp [Regex.run] at h1
  | cons c cs =>
    simp only [Regex.run] at h1
    split at h1
    · rename_i hc
      simp only [List.mem_singleton] at h1
      subst h1
      simp only [Regex.run, List.mem_map] at h2
      obtain ⟨s1, hs1, rfl⟩ := h2
      obtain ⟨d, hd, hp⟩ := starRun_split p cs s1 hs1
      refine ⟨c :: d, List.cons_ne_nil _ _, by rw [hd]; rfl, ?_, rfl⟩
      intro x hx
      rcases List.mem_cons.1 hx with rfl | hx
      · exact hc
      · exact hp x hx
    · simp at h1

theorem regex_run_caps (s : List Char) (st : MState) (h : st ∈ regex.run (s, [])) :
    ∃ d, st.2 = [d] ∧ d ≠ [] ∧ ∀ x ∈ d, isDigit x = true := by
  rw [regex, run_cat, List.mem_flatMap] at h
  obtain ⟨st2, h1, h2⟩ := h
  rw [run_cat, List.mem_flatMap] at h2
  obtain ⟨st3, h3, h4⟩ := h2
  rw [run_cat, List.mem_flatMap] at h4
  obtain ⟨st4, h5, h6⟩ := h4
  rw [run_cat, List.mem_flatMap] at h6
  obtain ⟨st5, h7, h8⟩ := h6
  have c2 := run_groupFree keywordRe _ _ (by decide) h1
  have c3 := run_groupFree (Regex.star notSpace) _ _ rfl h3
  have c4 := run_groupFree (plus isSpace) _ _ rfl h5
  have c5 := run_groupFree targetRe _ _ (by decide) h7
  obtain ⟨s5, caps5⟩ := st5
  rw [run_group, List.mem_map] at h8
  obtain ⟨st6, h9, rfl⟩ := h8
  obtain ⟨d, hne, hd, hp, hc⟩ := run_plus_split isDigit s5 caps5 st6 h9
  have hcaps : caps5 = [] := by
    simp only at c2 c3 c4 c5
    rw [c5, c4, c3, c2]
  refine ⟨d, ?_, hne, hp⟩
  simp only [hc, hcaps, List.nil_append, List.cons.injEq, and_true]
  rw [hd]
  simp

theorem attempt_digits (s : List Char) (m : List (List Char)) (rest : List Char)
    (h : attempt s = some (m, rest)) : digitMatch m := by
  unfold attempt matchAt at h
  cases hr : regex.run (s, []) with
  | nil => simp [hr] at h
  | cons st more =>
    simp only [hr, List.head?_cons, Option.map_some', Option.some.injEq, Prod.mk.injEq] at h
    obtain ⟨d, hd, hne, hp⟩ := regex_run_caps s st (by rw [hr]; exact List.mem_cons_self _ _)
    refine ⟨List.take (s.length - st.1.length) s, d, ?_, hne, hp⟩
    rw [← h.1, hd]

theorem findSubmatch_digits (s : List Char) (m : List (List Char)) (rest : List Char)
    (h : findSubmatch s = some (m, rest)) : digitMatch m := by
  induction s with
  | nil => exact attempt_digits [] m rest h
  | cons c cs ih =>
    unfold findSubmatch at h
    split at h
    · rename_i r hr
      simp only [Option.some.injEq] at h
      subst h
      exact attempt_digits _ _ _ hr
    · exact ih h

theorem findAllAux_digits (fuel : Nat) (s : List Char) :
    ∃ ms : List (List Char × List Char),
      findAllAux fuel s = ms.map (fun m => [m.1, m.2]) ∧
      ∀ m ∈ ms, m.2 ≠ [] ∧ ∀ x ∈ m.2, isDigit x = true := by
  induction fuel generalizing s with
  | zero => exact ⟨[], rfl, by simp⟩
  | succ n ih =>
    unfold findAllAux
    cases hf : findSubmatch s with
    | none => exact ⟨[], rfl, by simp⟩
    | some r =>
      obtain ⟨m, rest⟩ := r
      obtain ⟨whole, d, hm, hne, hp⟩ := findSubmatch_digits s m rest hf
      obtain ⟨ms, h1, h2⟩ := ih rest
      refine ⟨(whole, d) :: ms, ?_, ?_⟩
      · simp only [List.map_cons, h1, hm]
      · intro x hx
        rcases List.mem_cons.1 hx with rfl | hx
        · exact ⟨hne, hp⟩
        · exact h2 x hx

theorem extractIssueNumbers_repr (s : String) :
    ∃ added : List String,
      (∀ issues, extractIssueNumbers issues s = issues ++ added) ∧
      ∀ x ∈ added, isNumber x = true := by
  obtain ⟨ms, h1, h2⟩ := findAllAux_digits (s.length + 1) s.data
  refine ⟨ms.map (fun m => String.mk m.2), ?_, ?_⟩
  · intro issues
    have h3 := extract_fold ms issues
    simp only [extractIssueNumbers, FindAllStringSubmatch, h1, List.map_map]
    simpa [Function.comp_def] using h3
  · intro x hx
    obtain ⟨m, hm, rfl⟩ := List.mem_map.1 hx
    obtain ⟨hne, hp⟩ := h2 m hm
    have he : m.2.isEmpty = false := by
      cases hm2 : m.2 with
      | nil => exact absurd hm2 hne
      | cons a b => rfl
    simp only [isNumber, he, Bool.not_false, Bool.true_and, List.all_eq_true]
    exact hp

theorem extractIssueNumbers_append (issues : List String) (s : String) :
    extractIssueNumbers issues s = issues ++ extractIssueNumbers [] s := by
  obtain ⟨added, h, _⟩ := extractIssueNumbers_repr s
  rw [h issues, h []]
  rfl

/-! ## Texts without keyword, reopened locked issues, opened issues with milestone -/

/-- C15: on a text without closing keyword (no occurrence of `clos` or `fix`,
in any letter case as Go folds it) `extractIssueNumbers` appends nothing; on
the empty list it yields the empty list.  The function is total: it does not
fail. -/
theorem extractIssueNumbers_no_keyword (issues : List String) (s : String)
    (h : hasStem s.data = false) :
    extractIssueNumbers issues s = issues ∧ extractIssueNumbers [] s = [] := by
  have h1 : FindAllStringSubmatch s = [] := by
    simp [FindAllStringSubmatch, findAllAux, findSubmatch_noStem s.data h]
  simp [extractIssueNumbers, h1]

/-- C15 on a text that names issues without any closing keyword. -/
theorem extractIssueNumbers_no_keyword_witness :
    hasStem "see #42 and https://github.com/o/r/issues/99".data = false ∧
    extractIssueNumbers ["7"] "see #42 and https://github.com/o/r/issues/99" = ["7"] ∧
    extractIssueNumbers [] "see #42 and https://github.com/o/r/issues/99" = [] :=
  ⟨by decide,
    extractIssueNumbers_no_keyword ["7"] "see #42 and https://github.com/o/r/issues/99"
      (by decide)⟩

/-- The long s (U+017F) counts as a letter case of `s`, as in Go's case
folding: a keyword spelled with it is recognised. -/
theorem extractIssueNumbers_long_s :
    hasStem "cloſes #12".data = true ∧ extractIssueNumbers [] "cloſes #12" = ["12"] := by
  decide

/-- What holds of an `issues_reopened` event on a locked issue: it never
returns an error, whether the move to the done column and the unlock succeed
or fail; it returns nil unless the unlock call hands back an error without a
response; when the move fails, the package-level variables (the marker of the
issue among them) are unchanged and no lock or unlock call is made. -/
theorem reopened_locked_no_error (g : Globals) (w : World) (config : RepoConfig)
    (event : IssuesEvent) (hact : event.Action = "reopened")
    (hlock : event.Issue.Locked = true) :
    (∀ err, (handleIssuesEvent g w config event).ret ≠ Outcome.error err) ∧
    ((∀ err, w.Unlock event.Issue.Number ≠ (none, some err)) →
      (handleIssuesEvent g w config event).ret = Outcome.nil) ∧
    ((∃ err, w.Post (Itoa event.Issue.Number) g.doneColumn.id = .error err) →
      (handleIssuesEvent g w config event).ret = Outcome.nil ∧
      (handleIssuesEvent g w config event).globals = g ∧
      mapGet (Itoa event.Issue.Number) (handleIssuesEvent g w config event).globals.postProcessing
        = mapGet (Itoa event.Issue.Number) g.postProcessing ∧
      (handleIssuesEvent g w config event).effects.all (fun e => !e.isLockCall) = true) := by
  have h1 : ("closed" == "reopened") = false := by decide
  have h2 : ("reopened" == "reopened") = true := by decide
  unfold handleIssuesEvent
  simp only [closed_test, reopened_test, hact, hlock, h1, h2, Bool.and_self, if_true,
    Bool.false_eq_true, if_false, regularProcessing_locked _ _ _ _ _ hlock, moveIssueOnBoard,
    changeProgressLabel]
  cases hp : w.Post (Itoa event.Issue.Number) g.doneColumn.id with
  | error err =>
    simp [Effect.isLockCall]
  | ok status =>
    simp only [List.append_nil]
    cases hu : w.Unlock event.Issue.Number with
    | mk resp uerr =>
      cases resp <;> cases uerr <;> simp

/-- On the sample state with a marker for issue 5: with the board down the
handler returns nil, keeps the marker and makes no unlock call; with the unlock
call refused by the server it returns nil as well. -/
theorem reopened_locked_no_error_witness :
    (⟨"reopened", lockedIssue⟩ : IssuesEvent).Action = "reopened" ∧
    lockedIssue.Locked = true ∧
    (handleIssuesEvent markedGlobals World.boardDown sampleConfig
      ⟨"reopened", lockedIssue⟩).ret = Outcome.nil ∧
    (handleIssuesEvent markedGlobals World.boardDown sampleConfig
      ⟨"reopened", lockedIssue⟩).globals = markedGlobals ∧
    (handleIssuesEvent markedGlobals World.unlockDenied sampleConfig
      ⟨"reopened", lockedIssue⟩).ret = Outcome.nil :=
  ⟨rfl, rfl,
    ((reopened_locked_no_error markedGlobals World.boardDown sampleConfig
      ⟨"reopened", lockedIssue⟩ rfl rfl).2.2 ⟨"connection refused", rfl⟩).1,
    ((reopened_locked_no_error markedGlobals World.boardDown sampleConfig
      ⟨"reopened", lockedIssue⟩ rfl rfl).2.2 ⟨"connection refused", rfl⟩).2.1,
    (reopened_locked_no_error markedGlobals World.unlockDenied sampleConfig
      ⟨"reopened", lockedIssue⟩ rfl rfl).2.1 (by intro err h; cases h)⟩

/-- C16: on an `issues_reopened` event for the locked issue 5, when the move
succeeds and the unlock call fails without a response, the handler reads the
status of the nil response (line 148) and panics: it does not return. -/
theorem unlock_without_response_panics :
    World.unlockDropped.Unlock 5 = (none, some "connection reset") ∧
    World.unlockDropped.Post "5" sampleGlobals.doneColumn.id = .ok 200 ∧
    (handleIssuesEvent markedGlobals World.unlockDropped sampleConfig
        ⟨"reopened", lockedIssue⟩).ret = Outcome.panic ∧
    (handleIssuesEvent markedGlobals World.unlockDropped sampleConfig
        ⟨"reopened", lockedIssue⟩).effects
      = [Effect.BoardPost "1234" "5" "c3", Effect.Unlock 5] :=
  ⟨rfl, rfl, by decide, by decide⟩

/-- The dot of `github.com` in the pattern matches any character but newline. -/
theorem extractIssueNumbers_wildcard_dot :
    extractIssueNumbers [] "closes https://githubXcom/o/r/issues/5" = ["5"] ∧
    extractIssueNumbers [] "closes https://github\ncom/o/r/issues/5" = [] := by
  decide

/-- The conversion of the matched digits: leading zeros are dropped, a value
beyond the 64-bit range becomes the largest `int`. -/
theorem Atoi_digits :
    Atoi "7" = 7 ∧ Atoi "007" = 7 ∧ Atoi "99999999999999999999" = 9223372036854775807 ∧
    Atoi "-12" = -12 ∧ Atoi "" = 0 ∧ Atoi "1x" = 0 := by
  decide

/-- C17: for an `issues_opened` event on an unlocked issue with a milestone,
when `issues_milestoned` is in the mapping table the handler makes no call and
returns nil; otherwise the result is that of the same event without milestone,
the default lookup of `issues_opened`: one move to the mapped column when
`issues_opened` is mapped, nothing when it is not. -/
theorem opened_with_milestone (g : Globals) (w : World) (config : RepoConfig)
    (event : IssuesEvent) (m : String) (hact : event.Action = "opened")
    (hlock : event.Issue.Locked = false) (hms : event.Issue.Milestone = some m) :
    (∀ c, mapGet "issues_milestoned" g.stateMapping = some c →
      handleIssuesEvent g w config event = ⟨Outcome.nil, g, []⟩) ∧
    (mapGet "issues_milestoned" g.stateMapping = none →
      handleIssuesEvent g w config event = regularProcessing g w config event [] ∧
      (handleIssuesEvent g w config event).ret
        = (handleIssuesEvent g w config
            { event with Issue := { event.Issue with Milestone := none } }).ret ∧
      (handleIssuesEvent g w config event).effects
        = (handleIssuesEvent g w config
            { event with Issue := { event.Issue with Milestone := none } }).effects ∧
      (∀ col, mapGet "issues_opened" g.stateMapping = some col →
        (handleIssuesEvent g w config event).effects
          = [Effect.BoardPost config.Board.GithubRepo (Itoa event.Issue.Number) col.id]) ∧
      (mapGet "issues_opened" g.stateMapping = none →
        handleIssuesEvent g w config event = ⟨Outcome.nil, g, []⟩)) := by
  have h1 : ("closed" == "opened") = false := by decide
  have h2 : ("reopened" == "opened") = false := by decide
  have h3 : ("opened" == "opened") = true := by decide
  have hk : "issues" ++ "_" ++ "opened" = "issues_opened" := by decide
  have hev : handleIssuesEvent g w config event
      = match mapGet "issues_milestoned" g.stateMapping with
        | some _ => ⟨Outcome.nil, g, []⟩
        | none => regularProcessing g w config event [] := by
    unfold handleIssuesEvent
    simp only [closed_test, reopened_test, opened_test, hact, hms, h1, h2, h3, Bool.false_and,
      Bool.false_eq_true, if_false, Option.isSome_some, Bool.and_self, if_true]
  have hev0 : handleIssuesEvent g w config
      { event with Issue := { event.Issue with Milestone := none } }
      = regularProcessing g w config
          { event with Issue := { event.Issue with Milestone := none } } [] := by
    unfold handleIssuesEvent
    simp only [closed_test, reopened_test, opened_test, milestoned_test, demilestoned_test, hact,
      h1, h2, h3, Bool.false_and, Bool.false_eq_true, if_false, Option.isSome_none,
      Bool.and_false]
    rfl
  refine ⟨?_, ?_⟩
  · intro c hc
    rw [hev, hc]
  · intro hn
    have hreg : handleIssuesEvent g w config event = regularProcessing g w config event [] := by
      rw [hev, hn]
    refine ⟨hreg, ?_, ?_, ?_, ?_⟩
    · rw [hreg, hev0]
      unfold regularProcessing
      simp only [hlock, moveIssueOnBoard, changeProgressLabel]
    · rw [hreg, hev0]
      unfold regularProcessing
      simp only [hlock, moveIssueOnBoard, changeProgressLabel]
    · intro col hcol
      rw [hreg, regularProcessing_default g w config event [] col hlock (by rw [hact, hk]; exact hcol)]
      cases w.Post (Itoa event.Issue.Number) col.id <;> simp [changeProgressLabel]
    · intro hcol
      rw [hreg]
      exact regularProcessing_unmapped g w config event [] (by rw [hact, hk]; exact hcol)

/-- C17 on the sample state, where `issues_milestoned` is mapped: the opened
issue with a milestone is left alone. -/
theorem opened_with_milestone_witness :
    (⟨"opened", milestonedIssue⟩ : IssuesEvent).Action = "opened" ∧
    milestonedIssue.Locked = false ∧ milestonedIssue.Milestone = some "v1" ∧
    mapGet "issues_milestoned" sampleGlobals.stateMapping = some sampleGlobals.inboxColumn ∧
    handleIssuesEvent sampleGlobals World.quiet sampleConfig ⟨"opened", milestonedIssue⟩
      = ⟨Outcome.nil, sampleGlobals, []⟩ :=
  ⟨rfl, rfl, rfl, by decide,
    (opened_with_milestone sampleGlobals World.quiet sampleConfig ⟨"opened", milestonedIssue⟩
      "v1" rfl rfl rfl).1 sampleGlobals.inboxColumn (by decide)⟩

/-! ## The issues referenced by a pull request, failing board queries, appended numbers -/

theorem foldl_extractIssueNumbers (commits : List Commit) (init : List String) :
    commits.foldl (fun acc commit => extractIssueNumbers acc commit.Message) init
      = init ++ commitIssues commits := by
  induction commits generalizing init with
  | nil => simp [commitIssues]
  | cons c rest ih =>
    rw [List.foldl_cons, ih, extractIssueNumbers_append init c.Message]
    simp [commitIssues]

/-- C18: the list of referenced issues that `handlePullRequestEvent` processes
is the concatenation, in commit order, of the results of the extractor on the
commit messages when that concatenation is not empty, and the result of the
extractor on the body of the pull request otherwise; when a commit message
references an issue the list does not depend on the body. -/
theorem referencedIssues_commits_then_body (commits : List Commit) (body : String) :
    referencedIssues commits body
      = (if (commitIssues commits).isEmpty then extractIssueNumbers [] body
          else commitIssues commits) ∧
    (commitIssues commits ≠ [] → ∀ body2, referencedIssues commits body2 = commitIssues commits) ∧
    (∀ (g : Globals) (w : World) (config : RepoConfig) (event : PullRequestEvent),
      w.ListCommits event.PullRequest.Number = .ok commits →
      handlePullRequestEvent g w config event
        = processIssues w config ("pull_request" ++ "_" ++ event.Action) g
            (if (commitIssues commits).isEmpty then extractIssueNumbers [] event.PullRequest.Body
              else commitIssues commits)
            [Effect.ListCommits event.PullRequest.Number]) := by
  have h : ∀ b, referencedIssues commits b
      = (if (commitIssues commits).isEmpty then extractIssueNumbers [] b
          else commitIssues commits) := by
    intro b
    unfold referencedIssues
    simp only [foldl_extractIssueNumbers, List.nil_append]
    cases hc : commitIssues commits with
    | nil => simp
    | cons x xs => simp
  refine ⟨h body, ?_, ?_⟩
  · intro hne body2
    rw [h body2]
    cases hc : commitIssues commits with
    | nil => exact absurd hc hne
    | cons x xs => simp
  · intro g w config event hcommits
    unfold handlePullRequestEvent
    simp only [hcommits, h]

/-- C18 on three commits, two of which close an issue: the list is `["1", "2"]`
whatever the body; on a commit without reference the body is used. -/
theorem referencedIssues_commits_then_body_witness :
    commitIssues [⟨"fixes #1"⟩, ⟨"typo"⟩, ⟨"closes #2"⟩] ≠ [] ∧
    commitIssues [⟨"fixes #1"⟩, ⟨"typo"⟩, ⟨"closes #2"⟩] = ["1", "2"] ∧
    referencedIssues [⟨"fixes #1"⟩, ⟨"typo"⟩, ⟨"closes #2"⟩] "closes #3"
      = commitIssues [⟨"fixes #1"⟩, ⟨"typo"⟩, ⟨"closes #2"⟩] ∧
    referencedIssues [⟨"typo"⟩] "closes #3" = ["3"] :=
  ⟨by decide, by decide,
    (referencedIssues_commits_then_body [⟨"fixes #1"⟩, ⟨"typo"⟩, ⟨"closes #2"⟩] "closes #3").2.1
      (by decide) "closes #3",
    by decide⟩

/-- C19: with no inbox column configured and `issues_milestoned` mapped to
`Backlog`, an `issues_milestoned` event whose board query fails, by a transport
error or by a malformed body, moves the unlocked issue to `Backlog`: the empty
column name that the failed query returns equals the name of the unset inbox
column. -/
theorem milestoned_query_fails_moves :
    noInboxGlobals.inboxColumn = column.zero ∧
    getIssueColumn World.boardGetDown noInboxConfig "5"
      = ((some "timeout", ""), [Effect.BoardGet "1234" "5"]) ∧
    getIssueColumn World.boardGarbled noInboxConfig "5"
      = ((some "invalid character", ""), [Effect.BoardGet "1234" "5"]) ∧
    (handleIssuesEvent noInboxGlobals World.boardGetDown noInboxConfig
        ⟨"milestoned", sampleIssue⟩).effects
      = [Effect.BoardGet "1234" "5", Effect.BoardPost "1234" "5" "b1"] ∧
    (handleIssuesEvent noInboxGlobals World.boardGarbled noInboxConfig
        ⟨"milestoned", sampleIssue⟩).effects
      = [Effect.BoardGet "1234" "5", Effect.BoardPost "1234" "5" "b1"] := by
  decide

/-- When the name of the inbox column is not empty, an `issues_milestoned`
event whose board query fails makes no board move and returns nil. -/
theorem milestoned_query_fails_named_inbox (g : Globals) (w : World) (config : RepoConfig)
    (event : IssuesEvent) (err : String) (hact : event.Action = "milestoned")
    (hget : (getIssueColumn w config (Itoa event.Issue.Number)).1 = (some err, ""))
    (hinbox : g.inboxColumn.name ≠ "") :
    (handleIssuesEvent g w config event).effects.all (fun e => !e.isBoardMove) = true ∧
    (handleIssuesEvent g w config event).ret = Outcome.nil := by
  have h1 : ("closed" == "milestoned") = false := by decide
  have h2 : ("reopened" == "milestoned") = false := by decide
  have h3 : ("opened" == "milestoned") = false := by decide
  have h4 : ("milestoned" == "milestoned") = true := by decide
  have hne : (("" : String) != g.inboxColumn.name) = true := by
    simpa using fun h : "" = g.inboxColumn.name => hinbox h.symm
  have hg := getIssueColumn_effects w config (Itoa event.Issue.Number)
  unfold handleIssuesEvent
  simp only [closed_test, reopened_test, opened_test, milestoned_test, hact, h1, h2, h3, h4,
    Bool.false_and, Bool.false_eq_true, if_false, if_true]
  cases hgc : getIssueColumn w config (Itoa event.Issue.Number) with
  | mk res e1 =>
    rw [hgc] at hg hget
    simp only at hg hget
    subst hg
    subst hget
    simp [hne, Effect.isBoardMove]

/-- C20: for every text and every initial list, the result of
`extractIssueNumbers` is the initial list followed by the appended elements,
and every appended element is a non-empty string of the ASCII digits `0` to
`9`. -/
theorem extractIssueNumbers_appends_numbers (issues : List String) (s : String) :
    ∃ added : List String,
      extractIssueNumbers issues s = issues ++ added ∧
      issues <+: extractIssueNumbers issues s ∧
      ∀ x ∈ added, x.data ≠ [] ∧ ∀ c ∈ x.data, '0' ≤ c ∧ c ≤ '9' := by
  obtain ⟨added, h, hn⟩ := extractIssueNumbers_repr s
  refine ⟨added, h issues, ⟨added, (h issues).symm⟩, ?_⟩
  intro x hx
  have h1 := hn x hx
  simp only [isNumber, Bool.and_eq_true, Bool.not_eq_true', List.all_eq_true,
    List.isEmpty_eq_false] at h1
  refine ⟨h1.1, ?_⟩
  intro c hc
  have h2 := h1.2 c hc
  simp only [isDigit, Bool.and_eq_true, decide_eq_true_eq] at h2
  exact h2

end Webhook
